import Mathlib

/-!
Verification development for the Remirror-Table repository
(src/src/CustomTableExtension/CustomTableExtension.tsx, src/unnamed/part_002).

The document model is a shallow embedding of the ProseMirror document tree as
the table commands see it: a document is a list of top-level block nodes;
a table node holds row nodes; a row node holds cell nodes (tableCell or
tableHeaderCell).  Cell content is abstracted to its size (the commands never
read inside a cell), and generic non-table blocks are abstracted to their
size as well.  Positions follow the ProseMirror convention: a non-leaf node
of content size s has nodeSize 2 + s, the first child of a node at position
p sits at position p + 1, and a sibling follows at the previous sibling
position plus its nodeSize.
-/

/-- Attributes of a tableCell / tableHeaderCell node, as declared by the
table schema (border, borderColor, background, highlight, colspan, rowspan).
A TypeScript `null` is `Option.none`; note that the string "null" used by
`alternateColor` is a distinct value `some "null"`. -/
structure CellAttrs where
  border : Option String
  borderColor : Option String
  background : Option String
  highlight : Bool
  colspan : Nat
  rowspan : Nat
deriving DecidableEq, Repr

/-- Attributes of a table node (table-wide defaults plus the string-valued
`alternateColor` flag). -/
structure TableAttrs where
  border : Option String
  borderColor : Option String
  background : Option String
  alternateColor : String
deriving DecidableEq, Repr

/-- The two cell node types of the schema. -/
inductive CellKind where
  | tableCell
  | tableHeaderCell
deriving DecidableEq, Repr

/-- Document nodes.  `cell k a inner` is a cell whose content size is
`inner`; `blk sz` is any non-table top-level block of nodeSize `sz`. -/
inductive Nd where
  | table (attrs : TableAttrs) (rows : List Nd)
  | row (cells : List Nd)
  | cell (k : CellKind) (attrs : CellAttrs) (inner : Nat)
  | blk (sz : Nat)

mutual

/-- Boolean equality on nodes (DecidableEq cannot be derived for this nested
inductive, so it is built by hand). -/
def beqNd : Nd → Nd → Bool
  | .table a rs, .table b ts => decide (a = b) && beqNds rs ts
  | .row cs, .row ds => beqNds cs ds
  | .cell k a i, .cell l b j => decide (k = l) && decide (a = b) && decide (i = j)
  | .blk s, .blk t => decide (s = t)
  | _, _ => false

/-- Boolean equality on node lists. -/
def beqNds : List Nd → List Nd → Bool
  | [], [] => true
  | x :: xs, y :: ys => beqNd x y && beqNds xs ys
  | _, _ => false

end

mutual

theorem beqNd_refl : ∀ x, beqNd x x = true
  | .table a rs => by simp [beqNd, beqNds_refl rs]
  | .row cs => by simp [beqNd, beqNds_refl cs]
  | .cell k a i => by simp [beqNd]
  | .blk s => by simp [beqNd]

theorem beqNds_refl : ∀ xs, beqNds xs xs = true
  | [] => by simp [beqNds]
  | x :: xs => by simp [beqNds, beqNd_refl x, beqNds_refl xs]

end

mutual

theorem beqNd_sound : ∀ x y, beqNd x y = true → x = y
  | .table a rs, .table b ts, h => by
    simp only [beqNd, Bool.and_eq_true, decide_eq_true_eq] at h
    rw [h.1, beqNds_sound rs ts h.2]
  | .row cs, .row ds, h => by
    simp only [beqNd] at h
    rw [beqNds_sound cs ds h]
  | .cell k a i, .cell l b j, h => by
    simp only [beqNd, Bool.and_eq_true, decide_eq_true_eq] at h
    rw [h.1.1, h.1.2, h.2]
  | .blk s, .blk t, h => by
    simp only [beqNd, decide_eq_true_eq] at h
    rw [h]
  | .table _ _, .row _, h => by simp [beqNd] at h
  | .table _ _, .cell _ _ _, h => by simp [beqNd] at h
  | .table _ _, .blk _, h => by simp [beqNd] at h
  | .row _, .table _ _, h => by simp [beqNd] at h
  | .row _, .cell _ _ _, h => by simp [beqNd] at h
  | .row _, .blk _, h => by simp [beqNd] at h
  | .cell _ _ _, .table _ _, h => by simp [beqNd] at h
  | .cell _ _ _, .row _, h => by simp [beqNd] at h
  | .cell _ _ _, .blk _, h => by simp [beqNd] at h
  | .blk _, .table _ _, h => by simp [beqNd] at h
  | .blk _, .row _, h => by simp [beqNd] at h
  | .blk _, .cell _ _ _, h => by simp [beqNd] at h

theorem beqNds_sound : ∀ xs ys, beqNds xs ys = true → xs = ys
  | [], [], _ => rfl
  | [], _ :: _, h => by simp [beqNds] at h
  | _ :: _, [], h => by simp [beqNds] at h
  | x :: xs, y :: ys, h => by
    simp only [beqNds, Bool.and_eq_true] at h
    rw [beqNd_sound x y h.1, beqNds_sound xs ys h.2]

end

instance : DecidableEq Nd := fun x y =>
  if h : beqNd x y = true then isTrue (beqNd_sound x y h)
  else isFalse (fun he => h (he ▸ beqNd_refl x))

mutual

/-- ProseMirror nodeSize of a node. -/
def ndSize : Nd → Nat
  | .table _ rows => 2 + ndsSize rows
  | .row cells => 2 + ndsSize cells
  | .cell _ _ inner => 2 + inner
  | .blk sz => sz

/-- Total size of a list of sibling nodes. -/
def ndsSize : List Nd → Nat
  | [] => 0
  | n :: ns => ndSize n + ndsSize ns

end

mutual

/-- Preorder traversal with positions of one node: the list of (node, pos)
pairs that `doc.descendants` visits inside this node (the node itself
included), when the node starts at position `pos`. -/
def descNode : Nd → Nat → List (Nd × Nat)
  | .table a rows, pos => (.table a rows, pos) :: descList rows (pos + 1)
  | .row cells, pos => (.row cells, pos) :: descList cells (pos + 1)
  | .cell k a inner, pos => [(.cell k a inner, pos)]
  | .blk sz, pos => [(.blk sz, pos)]

/-- Preorder traversal of sibling nodes starting at position `pos`. -/
def descList : List Nd → Nat → List (Nd × Nat)
  | [], _ => []
  | n :: ns, pos => descNode n pos ++ descList ns (pos + ndSize n)

end

/-- An attribute-replacement edit, the shape of every `tr.setNodeMarkup`
call issued by the commands under study: replace the attributes of the node
at a given position, keeping its type and content. -/
inductive EditO where
  | cellE (pos : Nat) (a : CellAttrs)
  | tableE (pos : Nat) (a : TableAttrs)
deriving DecidableEq, Repr

/-- Position targeted by an edit. -/
def EditO.pos : EditO → Nat
  | .cellE p _ => p
  | .tableE p _ => p

mutual

/-- Apply one attribute edit inside a list of siblings starting at `base`. -/
def applyList : List Nd → Nat → EditO → List Nd
  | [], _, _ => []
  | n :: ns, base, e =>
    if e.pos < base + ndSize n then applyNode n base e :: ns
    else n :: applyList ns (base + ndSize n) e

/-- Apply one attribute edit to the node at `base` or inside it. -/
def applyNode (n : Nd) (base : Nat) (e : EditO) : Nd :=
  if e.pos = base then
    match n, e with
    | .cell k _ inner, .cellE _ a => .cell k a inner
    | .table _ rows, .tableE _ a => .table a rows
    | .cell k a0 inner, .tableE _ _ => .cell k a0 inner
    | .table a0 rows, .cellE _ _ => .table a0 rows
    | .row cells, _ => .row cells
    | .blk sz, _ => .blk sz
  else
    match n with
    | .table a rows => .table a (applyList rows (base + 1) e)
    | .row cells => .row (applyList cells (base + 1) e)
    | .cell k a i => .cell k a i
    | .blk sz => .blk sz

end

mutual

/-- The node occupying exactly position `p`, searching a sibling list that
starts at `base`. -/
def nodeAtList : List Nd → Nat → Nat → Option Nd
  | [], _, _ => none
  | n :: ns, base, p =>
    if p < base + ndSize n then nodeAtNode n base p
    else nodeAtList ns (base + ndSize n) p

/-- The node occupying exactly position `p` inside node `n` at `base`. -/
def nodeAtNode (n : Nd) (base p : Nat) : Option Nd :=
  if p = base then some n
  else
    match n with
    | .table _ rows => nodeAtList rows (base + 1) p
    | .row cells => nodeAtList cells (base + 1) p
    | .cell _ _ _ => none
    | .blk _ => none

end

/-- Is the node a cell node (tableCell or tableHeaderCell)? -/
def isCellNd : Nd → Bool
  | .cell _ _ _ => true
  | _ => false

/-- A row node all of whose children are cells. -/
def rowOfCells : Nd → Bool
  | .row cs => cs.all isCellNd
  | _ => false

/-- A well-formed top-level block: a generic block of positive size, or a
table whose children are rows of cells.  (Nested tables, which the schema
technically permits inside cell content, are outside this model.) -/
def topLevelWF : Nd → Bool
  | .blk sz => decide (1 ≤ sz)
  | .table _ rows => rows.all rowOfCells
  | _ => false

/-- findParentNodeOfType with types "table": the enclosing table of a
selection anchored at position `sel`, scanning siblings from `base`.  A
position is inside a node at `q` exactly when `q < sel < q + nodeSize`. -/
def findParentTable : List Nd → Nat → Nat → Option (Nat × TableAttrs × List Nd)
  | [], _, _ => none
  | .table ta rows :: ns, base, sel =>
    if base < sel ∧ sel < base + ndSize (.table ta rows) then some (base, ta, rows)
    else findParentTable ns (base + ndSize (.table ta rows)) sel
  | .row cs :: ns, base, sel => findParentTable ns (base + ndSize (.row cs)) sel
  | .cell k a i :: ns, base, sel => findParentTable ns (base + ndSize (.cell k a i)) sel
  | .blk sz :: ns, base, sel => findParentTable ns (base + ndSize (.blk sz)) sel

mutual

/-- findParentNodeOfType with types "tableCell" over a sibling list: the
enclosing cell of kind tableCell (header cells do NOT match, exactly as in
the source, which passes the single type name "tableCell"). -/
def findCellList : List Nd → Nat → Nat → Option (Nat × CellAttrs × Nat)
  | [], _, _ => none
  | n :: ns, base, sel =>
    match findCellNode n base sel with
    | some r => some r
    | none => findCellList ns (base + ndSize n) sel

/-- Search one node for the enclosing tableCell of position `sel`. -/
def findCellNode : Nd → Nat → Nat → Option (Nat × CellAttrs × Nat)
  | .cell k a i, base, sel =>
    if k = .tableCell ∧ base < sel ∧ sel < base + (2 + i) then some (base, a, i) else none
  | .table _ rows, base, sel => findCellList rows (base + 1) sel
  | .row cells, base, sel => findCellList cells (base + 1) sel
  | .blk _, _, _ => none

end

/-! ### The scoped default-propagation descent

CustomTableExtension.tsx lines 533-575 (defaultBorder), 577-638
(defaultBorderColor) and 640-683 (defaultBackgroundColor) are verbatim
copies of one loop, differing only in which attribute is written.  The loop
walks `tr.doc.descendants`, carrying a mutable `last` (uninitialized, so a
`pos <= last` comparison is false until the first assignment) and a mutable
`curTable` flag that is set but never reset. -/

/-- Accumulator of the descent loop of the default-setting commands:
`last` and `curTable` are the two mutable loop variables; `edits` is the
sequence of setNodeMarkup calls queued on the transaction so far. -/
structure DState where
  last : Option Nat
  curTable : Bool
  edits : List EditO

/-- The JavaScript comparison `pos <= last` where `last : number` may still
be undefined (undefined compares false). -/
def leLast (pos : Nat) : Option Nat → Bool
  | none => false
  | some l => decide (pos ≤ l)

/-- One iteration of the descendants callback of defaultBorder /
defaultBorderColor / defaultBackgroundColor, with `updC` the attribute
rewrite applied to a non-highlighted cell. -/
def stepDefault (sel : Nat) (updC : CellAttrs → CellAttrs) (s : DState) (np : Nd × Nat) :
    DState :=
  let s1 : DState :=
    match np.1 with
    | .table _ _ =>
      if np.2 < sel then
        { s with last := some (np.2 + ndSize np.1),
                 curTable := s.curTable || decide (sel < np.2 + ndSize np.1) }
      else s
    | _ => s
  if leLast np.2 s1.last && s1.curTable then
    match np.1 with
    | .cell _ a _ =>
      if !a.highlight then { s1 with edits := s1.edits ++ [.cellE np.2 (updC a)] } else s1
    | _ => s1
  else s1

/-- The common body of the three default-setting commands: find the
enclosing table (the source applies a non-null assertion to the result, so
a missing table is a thrown TypeError, modelled as `none`), rewrite the
table attributes, then run the descent and apply the queued edits.  The
source returns `true` unconditionally at the end. -/
def scopedDefault (updT : TableAttrs → TableAttrs) (updC : CellAttrs → CellAttrs)
    (doc : List Nd) (sel : Nat) : Option (List Nd × Bool) :=
  match findParentTable doc 0 sel with
  | none => none
  | some (tpos, ta, _) =>
    let doc1 := applyList doc 0 (.tableE tpos (updT ta))
    let st := (descList doc1 0).foldl (stepDefault sel updC) ⟨none, false, []⟩
    some (st.edits.foldl (fun d e => applyList d 0 e) doc1, true)

/-- defaultBorder (CustomTableExtension.tsx lines 533-575). -/
def defaultBorder (doc : List Nd) (sel : Nat) (border : Option String) :
    Option (List Nd × Bool) :=
  scopedDefault (fun t => { t with border := border })
    (fun a => { a with border := border }) doc sel

/-- defaultBorderColor (CustomTableExtension.tsx lines 577-638). -/
def defaultBorderColor (doc : List Nd) (sel : Nat) (borderColor : Option String) :
    Option (List Nd × Bool) :=
  scopedDefault (fun t => { t with borderColor := borderColor })
    (fun a => { a with borderColor := borderColor }) doc sel

/-- defaultBackgroundColor (CustomTableExtension.tsx lines 640-683). -/
def defaultBackgroundColor (doc : List Nd) (sel : Nat) (background : Option String) :
    Option (List Nd × Bool) :=
  scopedDefault (fun t => { t with background := background })
    (fun a => { a with background := background }) doc sel

/-- Accumulator of the alternateColor descent: the same two loop variables
plus the running row counter `count`. -/
structure AState where
  last : Option Nat
  curTable : Bool
  count : Nat
  edits : List EditO

/-- One iteration of the descendants callback of alternateColor
(CustomTableExtension.tsx lines 705-744): on the enclosing table, set the
alternateColor flag to "true" when it reads "false"; inside the scope,
bump `count` at each row and give each non-highlighted cell the banding
color "#E6E6E6" on an odd count and the literal string "null" on an even
count. -/
def stepAlternate (sel : Nat) (s : AState) (np : Nd × Nat) : AState :=
  let s1 : AState :=
    match np.1 with
    | .table ta _ =>
      if np.2 < sel then
        let lastv := np.2 + ndSize np.1
        if sel < lastv then
          { s with last := some lastv, curTable := true,
                   edits := if ta.alternateColor = "false"
                            then s.edits ++ [.tableE np.2 { ta with alternateColor := "true" }]
                            else s.edits }
        else { s with last := some lastv }
      else s
    | _ => s
  if leLast np.2 s1.last && s1.curTable then
    let s2 : AState :=
      match np.1 with
      | .row _ => { s1 with count := s1.count + 1 }
      | _ => s1
    match np.1 with
    | .cell _ a _ =>
      if !a.highlight then
        if s2.count % 2 ≠ 0 then
          { s2 with edits := s2.edits ++ [.cellE np.2 { a with background := some "#E6E6E6" }] }
        else
          { s2 with edits := s2.edits ++ [.cellE np.2 { a with background := some "null" }] }
      else s2
    | _ => s2
  else s1

/-- alternateColor (CustomTableExtension.tsx lines 685-748).  The initial
setNodeMarkup on the found table spreads its own attrs back unchanged. -/
def alternateColor (doc : List Nd) (sel : Nat) : Option (List Nd × Bool) :=
  match findParentTable doc 0 sel with
  | none => none
  | some (tpos, ta, _) =>
    let doc1 := applyList doc 0 (.tableE tpos ta)
    let st := (descList doc1 0).foldl (stepAlternate sel) ⟨none, false, 0, []⟩
    some (st.edits.foldl (fun d e => applyList d 0 e) doc1, true)

/-- The selection as the cell commands see it: either a CellSelection,
which enumerates the positions of the selected cells, or any other
selection, represented by its anchor position. -/
inductive Sel where
  | cellsSel (ps : List Nat)
  | textSel (anchor : Nat)

/-- The forEachCell loop shared by the CellSelection branches: one
setNodeMarkup per enumerated cell, each computing the new attributes from
the attrs the cell carries in the selection snapshot `doc`. -/
def forEachCellEdit (doc : List Nd) (ps : List Nat) (f : CellAttrs → CellAttrs) : List Nd :=
  ps.foldl (fun d p =>
    match nodeAtList doc 0 p with
    | some (.cell _ a _) => applyList d 0 (.cellE p (f a))
    | _ => d) doc

/-- highlightSelection (CustomTableExtension.tsx lines 328-369): give every
targeted cell the override border and borderColor plus highlight = true;
with no CellSelection and no enclosing tableCell it returns false and edits
nothing. -/
def highlightSelection (doc : List Nd) (s : Sel) (border borderColor : Option String) :
    List Nd × Bool :=
  match s with
  | .cellsSel ps =>
    (forEachCellEdit doc ps
      (fun a => { a with border := border, borderColor := borderColor, highlight := true }), true)
  | .textSel anchor =>
    match findCellList doc 0 anchor with
    | some (p, a, _) =>
      (applyList doc 0
        (.cellE p { a with border := border, borderColor := borderColor, highlight := true }), true)
    | none => (doc, false)

/-- removeHighlightSelection (CustomTableExtension.tsx lines 371-407).  The
CellSelection branch resets border, borderColor and highlight; the
single-cell branch (lines 395-402) spreads the old attrs and overrides
highlight only. -/
def removeHighlightSelection (doc : List Nd) (s : Sel) : List Nd × Bool :=
  match s with
  | .cellsSel ps =>
    (forEachCellEdit doc ps
      (fun a => { a with border := none, borderColor := none, highlight := false }), true)
  | .textSel anchor =>
    match findCellList doc 0 anchor with
    | some (p, a, _) =>
      (applyList doc 0 (.cellE p { a with highlight := false }), true)
    | none => (doc, false)

/-- setTableCellBackground (CustomTableExtension.tsx lines 292-326): both
branches write the background and set highlight = true. -/
def setTableCellBackground (doc : List Nd) (s : Sel) (background : Option String) :
    List Nd × Bool :=
  match s with
  | .cellsSel ps =>
    (forEachCellEdit doc ps (fun a => { a with background := background, highlight := true }), true)
  | .textSel anchor =>
    match findCellList doc 0 anchor with
    | some (p, a, _) =>
      (applyList doc 0 (.cellE p { a with background := background, highlight := true }), true)
    | none => (doc, false)

/-- The final phase of addColumn (part_002 lines 70-76) and addRow
(part_002 lines 169-175): read border, background and borderColor from the
enclosing table of the (mapped) selection — the structural edits never touch
table attributes, so these equal the attrs of the rect table the source
reads them from — and chain defaultBorder, defaultBackgroundColor and
defaultBorderColor, in that order, over the post-edit document. -/
def structuralFinish (doc : List Nd) (sel : Nat) : Option (List Nd) :=
  match findParentTable doc 0 sel with
  | none => none
  | some (_, ta, _) =>
    match defaultBorder doc sel ta.border with
    | none => none
    | some (d1, _) =>
      match defaultBackgroundColor d1 sel ta.background with
      | none => none
      | some (d2, _) =>
        match defaultBorderColor d2 sel ta.borderColor with
        | none => none
        | some (d3, _) => some d3

/-- toggleMergeCellCommand (CustomTableExtension.tsx lines 750-756), with
the imported mergeCells and splitCell commands abstracted: a command maps a
document to `some` dispatched result on success and `none` on failure. -/
def toggleMergeCellCommand (mergeCells splitCell : List Nd → Option (List Nd))
    (doc : List Nd) : Bool × Option (List Nd) :=
  match mergeCells doc with
  | some d => (false, some d)
  | none =>
    match splitCell doc with
    | some d => (true, some d)
    | none => (false, none)

/-! ### The repair command (C8) and the column-insertion algorithm (C5) -/

/-- The (colspan, rowspan) list of a row, failing on a non-cell child. -/
def cellSpans : List Nd → Option (List (Nat × Nat))
  | [] => some []
  | .cell _ a _ :: cs => (cellSpans cs).map (fun r => (a.colspan, a.rowspan) :: r)
  | _ => none

/-- Consume `k` further columns for a spanning cell: they must carry no
rowspan overhang from the rows above. -/
def consumeCols : Nat → List Nat → Option (List Nat)
  | 0, rest => some rest
  | k+1, 0 :: rest => consumeCols k rest
  | _+1, _ => none

/-- Modelled from the spec: one scan line of the Grid Resolver of section
4.1 (the actual resolver is TableMap of prosemirror-tables, imported from
the @remirror/pm/tables package and not part of src).  `carry` holds, per
column, how many further rows are still covered by a rowspan from above;
the row fits when its cells, plus the carried columns, exactly tile the
width.  Fuel-indexed for termination; the fuel passed by callers exceeds
the column plus cell count. -/
def fitRowF : Nat → List Nat → List (Nat × Nat) → Option (List Nat)
  | 0, _, _ => none
  | _+1, [], [] => some []
  | _+1, [], _ :: _ => none
  | f+1, (c+1) :: rest, cells => (fitRowF f rest cells).map (fun r => c :: r)
  | _+1, 0 :: _, [] => none
  | f+1, 0 :: rest, (cs, rs) :: more =>
    if cs = 0 ∨ rs = 0 then none
    else
      match consumeCols (cs - 1) rest with
      | none => none
      | some rest2 => (fitRowF f rest2 more).map (fun r => List.replicate cs (rs - 1) ++ r)

/-- Modelled from the spec: successive scan lines of the Grid Resolver; the
final carry must be all zero (no rowspan may dangle past the last row). -/
def rowsFit (fuel : Nat) : List Nat → List Nd → Bool
  | carry, [] => carry.all (· = 0)
  | carry, .row cs :: rest =>
    match cellSpans cs with
    | none => false
    | some spans =>
      match fitRowF fuel carry spans with
      | none => false
      | some carry2 => rowsFit fuel carry2 rest
  | _, _ => false

/-- Modelled from the spec: grid width of a table, read off the first row
as the sum of its colspans (section 3, Grid). -/
def tableWidth : List Nd → Nat
  | .row cs :: _ => ((cellSpans cs).getD []).foldr (fun p acc => p.1 + acc) 0
  | _ => 0

/-- Modelled from the spec: a table is structurally valid when the Grid
Resolver succeeds on it (every row tiles the width exactly, section 4.1);
non-table blocks are trivially valid. -/
def tableShapeValid : Nd → Bool
  | .table _ rows =>
    match rows with
    | [] => false
    | _ =>
      let w := tableWidth rows
      rowsFit (w + ndsSize rows + 2) (List.replicate w 0) rows
  | _ => true

/-- Modelled from the spec: document validity, the Clean condition of the
Repair State Machine (section 4.7). -/
def docValid (doc : List Nd) : Bool := doc.all tableShapeValid

/-- Modelled from the spec: the fixTables function imported from
@remirror/pm/tables (prosemirror-tables), which is not part of src.  Per
sections 4.7 and 6 it returns a corrective transaction, or nothing when no
fix is needed (the document is already valid) or none can be computed; when
a fix is computed it restores validity using the retained last-good
snapshot as reference when one is present and valid. -/
def fixTables (doc : List Nd) (lastGoodState : Option (List Nd)) : Option (List Nd) :=
  if docValid doc then none
  else
    match lastGoodState with
    | some snap => if docValid snap then some snap else none
    | none => none

/-- fixTablesCommand (CustomTableExtension.tsx lines 517-531): dispatch the
corrective transaction when fixTables produces one and return true,
otherwise return false leaving the document untouched. -/
def fixTablesCommand (lastGoodState : Option (List Nd)) (doc : List Nd) : Bool × List Nd :=
  match fixTables doc lastGoodState with
  | none => (false, doc)
  | some d => (true, d)

/-- A cell as table.nodeAt returns it to addColumn: its node type and its
attribute bag. -/
structure PMCell where
  kind : CellKind
  attrs : CellAttrs
deriving DecidableEq, Repr

/-- The TableMap data addColumn consumes: logical width and height, and the
slot array mapping (row * width + col) to the in-table position of the cell
covering that slot. -/
structure TMap where
  width : Nat
  height : Nat
  map : List Nat
deriving DecidableEq, Repr

/-- JavaScript array indexing map.map[i] with a possibly negative index:
undefined out of range. -/
def mapGet (m : List Nat) (i : Int) : Option Nat :=
  if 0 ≤ i then m[i.toNat]? else none

/-- The addColSpan helper of prosemirror-tables: attrs with colspan
increased by one.  (Its colwidth bookkeeping has no counterpart here: the
cell attribute set of this schema is the one listed in the spec, without
colwidth.) -/
def addColSpan (a : CellAttrs) : CellAttrs := { a with colspan := a.colspan + 1 }

/-- One edit queued by the addColumn row loop: either a setNodeMarkup
extending a spanning cell, or a tr.insert of one freshly created empty cell
of the recorded node type.  The row index the loop was visiting is recorded
alongside. -/
inductive ColEdit where
  | extendSpan (row : Nat) (pos : Nat) (a : CellAttrs)
  | insertCell (row : Nat) (pos : Nat) (k : CellKind)
deriving DecidableEq, Repr

/-- The row loop of addColumn (part_002 lines 45-68).  `nodeAt` is
table.nodeAt, `positionAt` is map.positionAt; each non-null assertion of
the source is a propagated `none`.  The loop variable advances by the
rowspan of an extended cell (the source bumps `row` by rowspan - 1 and the
for loop adds one more); the fuel mirrors the bound `row < map.height`,
which allows at most `height` iterations. -/
def addColumnLoop (m : TMap) (nodeAt : Nat → Option PMCell) (positionAt : Nat → Nat → Nat)
    (col : Nat) : Nat → Nat → Option (List ColEdit)
  | _, 0 => some []
  | row, fuel+1 =>
    if row < m.height then
      let index := row * m.width + col
      if 0 < col ∧ col < m.width ∧ mapGet m.map ((index : Int) - 1) = mapGet m.map (index : Int) then
        match mapGet m.map (index : Int) with
        | none => none
        | some p =>
          match nodeAt p with
          | none => none
          | some cell =>
            (addColumnLoop m nodeAt positionAt col (row + cell.attrs.rowspan) fuel).map
              (fun es => .extendSpan row p (addColSpan cell.attrs) :: es)
      else
        let refColumn : Int := if col + 1 < m.width then 0 else -1
        match mapGet m.map ((index : Int) + refColumn) with
        | none => none
        | some t =>
          match nodeAt t with
          | none => none
          | some refCell =>
            (addColumnLoop m nodeAt positionAt col (row + 1) fuel).map
              (fun es => .insertCell row (positionAt row col) refCell.kind :: es)
    else some []

/-- addColumn (part_002 lines 29-79): the structural row loop.  The
propagation calls that follow it (lines 70-76) are structuralFinish. -/
def addColumn (m : TMap) (nodeAt : Nat → Option PMCell) (positionAt : Nat → Nat → Nat)
    (col : Nat) : Option (List ColEdit) :=
  addColumnLoop m nodeAt positionAt col 0 m.height

/-! ### Basic structural lemmas -/

/-- Is the node a table node? -/
def isTableNd : Nd → Bool
  | .table _ _ => true
  | _ => false

theorem ndsSize_append (xs ys : List Nd) : ndsSize (xs ++ ys) = ndsSize xs + ndsSize ys := by
  induction xs with
  | nil => simp [ndsSize]
  | cons x xs ih => simp [ndsSize, ih]; omega

theorem descList_append (xs ys : List Nd) (p : Nat) :
    descList (xs ++ ys) p = descList xs p ++ descList ys (p + ndsSize xs) := by
  induction xs generalizing p with
  | nil => simp [descList, ndsSize]
  | cons x xs ih =>
    simp [descList, ndsSize, ih, List.append_assoc, Nat.add_assoc]

mutual

theorem ndSize_applyNode : ∀ (n : Nd) (base : Nat) (e : EditO),
    ndSize (applyNode n base e) = ndSize n
  | .table a rows, base, e => by
    unfold applyNode
    by_cases h : e.pos = base
    · cases e <;> simp [h, ndSize]
    · simp [h, ndSize, ndsSize_applyList rows (base + 1) e]
  | .row cells, base, e => by
    unfold applyNode
    by_cases h : e.pos = base
    · cases e <;> simp [h, ndSize]
    · simp [h, ndSize, ndsSize_applyList cells (base + 1) e]
  | .cell k a i, base, e => by
    unfold applyNode
    by_cases h : e.pos = base
    · cases e <;> simp [h, ndSize]
    · simp [h, ndSize]
  | .blk sz, base, e => by
    unfold applyNode
    by_cases h : e.pos = base
    · cases e <;> simp [h, ndSize]
    · simp [h, ndSize]

theorem ndsSize_applyList : ∀ (ns : List Nd) (base : Nat) (e : EditO),
    ndsSize (applyList ns base e) = ndsSize ns
  | [], _, _ => rfl
  | n :: ns, base, e => by
    unfold applyList
    by_cases h : e.pos < base + ndSize n
    · simp [h, ndsSize, ndSize_applyNode n base e]
    · simp [h, ndsSize, ndsSize_applyList ns (base + ndSize n) e]

end

mutual

theorem pos_lb_descNode : ∀ (n : Nd) (p : Nat) (x : Nd × Nat), x ∈ descNode n p → p ≤ x.2
  | .table a rows, p, x, hx => by
    simp only [descNode, List.mem_cons] at hx
    rcases hx with h | h
    · subst h; exact le_refl _
    · exact le_trans (Nat.le_succ p) (pos_lb_descList rows (p + 1) x h)
  | .row cells, p, x, hx => by
    simp only [descNode, List.mem_cons] at hx
    rcases hx with h | h
    · subst h; exact le_refl _
    · exact le_trans (Nat.le_succ p) (pos_lb_descList cells (p + 1) x h)
  | .cell k a i, p, x, hx => by
    simp only [descNode, List.mem_singleton] at hx
    subst hx; exact le_refl _
  | .blk sz, p, x, hx => by
    simp only [descNode, List.mem_singleton] at hx
    subst hx; exact le_refl _

theorem pos_lb_descList : ∀ (ns : List Nd) (p : Nat) (x : Nd × Nat), x ∈ descList ns p → p ≤ x.2
  | n :: ns, p, x, hx => by
    simp only [descList, List.mem_append] at hx
    rcases hx with h | h
    · exact pos_lb_descNode n p x h
    · exact le_trans (Nat.le_add_right _ _) (pos_lb_descList ns (p + ndSize n) x h)
  | [], p, x, hx => by simp [descList] at hx

end

theorem noTable_descList_cells : ∀ (cs : List Nd) (p : Nat) (x : Nd × Nat),
    (∀ c ∈ cs, isCellNd c = true) → x ∈ descList cs p → isTableNd x.1 = false := by
  intro cs
  induction cs with
  | nil => intro p x _ hx; simp [descList] at hx
  | cons c cs ih =>
    intro p x hall hx
    simp only [descList, List.mem_append] at hx
    rcases hx with h | h
    · have hc : isCellNd c = true := hall c (List.mem_cons_self c cs)
      match c, hc with
      | .cell k a i, _ =>
        simp only [descNode, List.mem_singleton] at h
        subst h; rfl
    · exact ih (p + ndSize c) x (fun d hd => hall d (List.mem_cons_of_mem c hd)) h

theorem noTable_descList_rows : ∀ (rows : List Nd) (p : Nat) (x : Nd × Nat),
    (∀ r ∈ rows, rowOfCells r = true) → x ∈ descList rows p → isTableNd x.1 = false := by
  intro rows
  induction rows with
  | nil => intro p x _ hx; simp [descList] at hx
  | cons r rs ih =>
    intro p x hall hx
    simp only [descList, List.mem_append] at hx
    rcases hx with h | h
    · have hr : rowOfCells r = true := hall r (List.mem_cons_self r rs)
      match r, hr with
      | .row cs, hr =>
        simp only [descNode, List.mem_cons] at h
        rcases h with h | h
        · subst h; rfl
        · exact noTable_descList_cells cs (p + 1) x
            (by simpa [rowOfCells, List.all_eq_true] using hr) h
    · exact ih (p + ndSize r) x (fun d hd => hall d (List.mem_cons_of_mem r hd)) h

/-! ### Pointwise behavior of the descent steps -/

theorem stepDefault_blk (sel : Nat) (f : CellAttrs → CellAttrs) (s : DState) (z q : Nat) :
    stepDefault sel f s (.blk z, q) = s := by
  unfold stepDefault
  simp

theorem stepDefault_row (sel : Nat) (f : CellAttrs → CellAttrs) (s : DState)
    (cs : List Nd) (q : Nat) :
    stepDefault sel f s (.row cs, q) = s := by
  unfold stepDefault
  simp

theorem stepDefault_table (sel : Nat) (f : CellAttrs → CellAttrs) (s : DState)
    (ta : TableAttrs) (rows : List Nd) (q : Nat) :
    stepDefault sel f s (.table ta rows, q) =
      if q < sel then
        { s with last := some (q + ndSize (.table ta rows)),
                 curTable := s.curTable || decide (sel < q + ndSize (.table ta rows)) }
      else s := by
  unfold stepDefault
  by_cases h : q < sel <;> simp [h]

theorem stepDefault_cell (sel : Nat) (f : CellAttrs → CellAttrs) (s : DState)
    (k : CellKind) (a : CellAttrs) (i q : Nat) :
    stepDefault sel f s (.cell k a i, q) =
      if (leLast q s.last && s.curTable) && !a.highlight then
        { s with edits := s.edits ++ [.cellE q (f a)] }
      else s := by
  unfold stepDefault
  by_cases h1 : leLast q s.last && s.curTable
  · by_cases h2 : a.highlight <;> simp [h1, h2]
  · simp [h1]

/-- The banding attribute rewrite of alternateColor at row counter `c`. -/
def altBg (c : Nat) (a : CellAttrs) : CellAttrs :=
  { a with background := if c % 2 ≠ 0 then some "#E6E6E6" else some "null" }

theorem stepAlternate_blk (sel : Nat) (s : AState) (z q : Nat) :
    stepAlternate sel s (.blk z, q) = s := by
  unfold stepAlternate
  simp

theorem stepAlternate_row (sel : Nat) (s : AState) (cs : List Nd) (q : Nat) :
    stepAlternate sel s (.row cs, q) =
      if leLast q s.last && s.curTable then { s with count := s.count + 1 } else s := by
  unfold stepAlternate
  by_cases h : leLast q s.last && s.curTable <;> simp [h]

theorem stepAlternate_cell (sel : Nat) (s : AState)
    (k : CellKind) (a : CellAttrs) (i q : Nat) :
    stepAlternate sel s (.cell k a i, q) =
      if (leLast q s.last && s.curTable) && !a.highlight then
        { s with edits := s.edits ++ [.cellE q (altBg s.count a)] }
      else s := by
  unfold stepAlternate
  by_cases h1 : leLast q s.last && s.curTable
  · by_cases h2 : a.highlight
    · simp [h1, h2]
    · by_cases h3 : s.count % 2 = 0 <;> simp [h1, h2, h3, altBg]
  · simp [h1]

theorem stepAlternate_table (sel : Nat) (s : AState) (ta : TableAttrs)
    (rows : List Nd) (q : Nat) :
    stepAlternate sel s (.table ta rows, q) =
      if q < sel then
        if sel < q + ndSize (.table ta rows) then
          { s with last := some (q + ndSize (.table ta rows)), curTable := true,
                   edits := if ta.alternateColor = "false"
                            then s.edits ++ [.tableE q { ta with alternateColor := "true" }]
                            else s.edits }
        else { s with last := some (q + ndSize (.table ta rows)) }
      else s := by
  unfold stepAlternate
  by_cases h1 : q < sel
  · by_cases h2 : sel < q + ndSize (.table ta rows) <;> simp [h1, h2]
  · simp [h1]

/-! ### What the default descent does, segment by segment -/

/-- The rewrite a scoped default pass performs on one cell node: highlighted
cells are exempt, all others get the attribute update. -/
def updCellN (f : CellAttrs → CellAttrs) : Nd → Nd
  | .cell k a i => if a.highlight then .cell k a i else .cell k (f a) i
  | .row cs => .row cs
  | .table ta rows => .table ta rows
  | .blk sz => .blk sz

/-- The rewrite a scoped default pass performs on one row node. -/
def updRowN (f : CellAttrs → CellAttrs) : Nd → Nd
  | .row cs => .row (cs.map (updCellN f))
  | .cell k a i => .cell k a i
  | .table ta rows => .table ta rows
  | .blk sz => .blk sz

/-- The edits the default descent queues while scanning a cell list. -/
def cellEditsD (f : CellAttrs → CellAttrs) : List Nd → Nat → List EditO
  | [], _ => []
  | .cell k a i :: cs, p =>
    (if a.highlight then [] else [.cellE p (f a)]) ++ cellEditsD f cs (p + ndSize (.cell k a i))
  | .row cs2 :: cs, p => cellEditsD f cs (p + ndSize (.row cs2))
  | .table ta rs :: cs, p => cellEditsD f cs (p + ndSize (.table ta rs))
  | .blk sz :: cs, p => cellEditsD f cs (p + ndSize (.blk sz))

/-- The edits the default descent queues while scanning a row list. -/
def rowEditsD (f : CellAttrs → CellAttrs) : List Nd → Nat → List EditO
  | [], _ => []
  | .row cs :: rs, p => cellEditsD f cs (p + 1) ++ rowEditsD f rs (p + ndSize (.row cs))
  | .cell k a i :: rs, p => rowEditsD f rs (p + ndSize (.cell k a i))
  | .table ta rs2 :: rs, p => rowEditsD f rs (p + ndSize (.table ta rs2))
  | .blk sz :: rs, p => rowEditsD f rs (p + ndSize (.blk sz))

theorem cellEditsD_bounds (f : CellAttrs → CellAttrs) :
    ∀ (cs : List Nd) (p : Nat) (e : EditO), e ∈ cellEditsD f cs p →
      p ≤ e.pos ∧ e.pos < p + ndsSize cs := by
  intro cs
  induction cs with
  | nil => intro p e he; simp [cellEditsD] at he
  | cons c cs ih =>
    intro p e he
    match c with
    | .cell k a i =>
      rw [cellEditsD] at he
      rcases List.mem_append.mp he with h | h
      · have : e = .cellE p (f a) := by
          by_cases hh : a.highlight
          · simp [hh] at h
          · simp [hh] at h
            simp [h]
        subst this
        simp only [EditO.pos, ndsSize, ndSize]
        omega
      · have := ih (p + ndSize (.cell k a i)) e h
        simp only [ndsSize, ndSize] at this ⊢
        omega
    | .row cs2 =>
      rw [cellEditsD] at he
      have := ih (p + ndSize (.row cs2)) e he
      simp only [ndsSize] at this ⊢
      omega
    | .table ta rs =>
      rw [cellEditsD] at he
      have := ih (p + ndSize (.table ta rs)) e he
      simp only [ndsSize] at this ⊢
      omega
    | .blk sz =>
      rw [cellEditsD] at he
      have := ih (p + ndSize (.blk sz)) e he
      simp only [ndsSize] at this ⊢
      omega

theorem rowEditsD_bounds (f : CellAttrs → CellAttrs) :
    ∀ (rows : List Nd) (p : Nat) (e : EditO), e ∈ rowEditsD f rows p →
      p + 1 ≤ e.pos ∧ e.pos < p + ndsSize rows := by
  intro rows
  induction rows with
  | nil => intro p e he; simp [rowEditsD] at he
  | cons r rs ih =>
    intro p e he
    match r with
    | .row cs =>
      rw [rowEditsD] at he
      rcases List.mem_append.mp he with h | h
      · have := cellEditsD_bounds f cs (p + 1) e h
        simp only [ndsSize, ndSize] at this ⊢
        omega
      · have := ih (p + ndSize (.row cs)) e h
        simp only [ndsSize, ndSize] at this ⊢
        omega
    | .cell k a i =>
      rw [rowEditsD] at he
      have := ih (p + ndSize (.cell k a i)) e he
      simp only [ndsSize] at this ⊢
      omega
    | .table ta rs2 =>
      rw [rowEditsD] at he
      have := ih (p + ndSize (.table ta rs2)) e he
      simp only [ndsSize] at this ⊢
      omega
    | .blk sz =>
      rw [rowEditsD] at he
      have := ih (p + ndSize (.blk sz)) e he
      simp only [ndsSize] at this ⊢
      omega

theorem foldD_noTable_noCur (sel : Nat) (f : CellAttrs → CellAttrs) :
    ∀ (l : List (Nd × Nat)) (s : DState), (∀ x ∈ l, isTableNd x.1 = false) →
      s.curTable = false → l.foldl (stepDefault sel f) s = s := by
  intro l
  induction l with
  | nil => intro s _ _; rfl
  | cons x l ih =>
    intro s hall hcur
    have hx : isTableNd x.1 = false := hall x (List.mem_cons_self x l)
    have hstep : stepDefault sel f s x = s := by
      match x, hx with
      | (.row cs, q), _ => exact stepDefault_row sel f s cs q
      | (.cell k a i, q), _ => rw [stepDefault_cell]; simp [hcur]
      | (.blk z, q), _ => exact stepDefault_blk sel f s z q
    rw [List.foldl_cons, hstep]
    exact ih s (fun y hy => hall y (List.mem_cons_of_mem x hy)) hcur

theorem foldD_far (sel : Nat) (f : CellAttrs → CellAttrs) (L : Nat) :
    ∀ (l : List (Nd × Nat)) (s : DState),
      (∀ x ∈ l, isTableNd x.1 = false ∧ L < x.2) → s.last = some L →
      l.foldl (stepDefault sel f) s = s := by
  intro l
  induction l with
  | nil => intro s _ _; rfl
  | cons x l ih =>
    intro s hall hlast
    obtain ⟨hx, hq⟩ := hall x (List.mem_cons_self x l)
    have hstep : stepDefault sel f s x = s := by
      match x, hx, hq with
      | (.row cs, q), _, hq => exact stepDefault_row sel f s cs q
      | (.cell k a i, q), _, hq =>
        rw [stepDefault_cell, hlast]
        simp [leLast, Nat.not_le.mpr hq]
      | (.blk z, q), _, hq => exact stepDefault_blk sel f s z q
    rw [List.foldl_cons, hstep]
    exact ih s (fun y hy => hall y (List.mem_cons_of_mem x hy)) hlast

theorem foldD_pre (sel : Nat) (f : CellAttrs → CellAttrs) :
    ∀ (pre : List Nd) (p : Nat) (s : DState), (∀ n ∈ pre, topLevelWF n = true) →
      s.curTable = false → p + ndsSize pre ≤ sel →
      ∃ L, (descList pre p).foldl (stepDefault sel f) s = ⟨L, false, s.edits⟩ := by
  intro pre
  induction pre with
  | nil =>
    intro p s _ hcur _
    refine ⟨s.last, ?_⟩
    obtain ⟨a, b, c⟩ := s
    simp only [DState.curTable] at hcur
    simp [descList, hcur]
  | cons n pre ih =>
    intro p s hall hcur hsel
    have hn : topLevelWF n = true := hall n (List.mem_cons_self n pre)
    have hrest : ∀ m ∈ pre, topLevelWF m = true :=
      fun m hm => hall m (List.mem_cons_of_mem n hm)
    rw [descList, List.foldl_append]
    match n, hn with
    | .blk sz, _ =>
      rw [show descNode (.blk sz) p = [(.blk sz, p)] from rfl]
      rw [List.foldl_cons, List.foldl_nil, stepDefault_blk]
      exact ih (p + ndSize (.blk sz)) s hrest hcur
        (by simp only [ndsSize] at hsel ⊢; omega)
    | .table ta rows, hn =>
      have hrows : ∀ r ∈ rows, rowOfCells r = true := by
        simpa [topLevelWF, List.all_eq_true] using hn
      have hsize : ndSize (.table ta rows) + ndsSize pre = ndsSize (.table ta rows :: pre) := by
        simp [ndsSize]
      rw [show descNode (.table ta rows) p = (.table ta rows, p) :: descList rows (p + 1) from rfl]
      rw [List.foldl_cons, stepDefault_table]
      have hplt : p < sel := by
        have h2 : 2 ≤ ndSize (.table ta rows) := by simp [ndSize]
        simp only [ndsSize] at hsel
        omega
      have hfar : ¬(sel < p + ndSize (.table ta rows)) := by
        simp only [ndsSize] at hsel
        omega
      rw [if_pos hplt]
      have hmid : (descList rows (p + 1)).foldl (stepDefault sel f)
          { s with last := some (p + ndSize (.table ta rows)),
                   curTable := s.curTable || decide (sel < p + ndSize (.table ta rows)) }
          = { s with last := some (p + ndSize (.table ta rows)),
                     curTable := s.curTable || decide (sel < p + ndSize (.table ta rows)) } := by
        apply foldD_noTable_noCur
        · intro x hx
          exact noTable_descList_rows rows (p + 1) x hrows hx
        · simp [hcur, hfar]
      rw [hmid]
      have := ih (p + ndSize (.table ta rows))
        { s with last := some (p + ndSize (.table ta rows)),
                 curTable := s.curTable || decide (sel < p + ndSize (.table ta rows)) }
        hrest (by simp [hcur, hfar]) (by simp only [ndsSize] at hsel ⊢; omega)
      simpa using this

theorem foldD_cells (sel : Nat) (f : CellAttrs → CellAttrs) (L : Nat) :
    ∀ (cs : List Nd) (p : Nat) (s : DState), (∀ c ∈ cs, isCellNd c = true) →
      s.last = some L → s.curTable = true → p + ndsSize cs ≤ L + 1 →
      (descList cs p).foldl (stepDefault sel f) s =
        { s with edits := s.edits ++ cellEditsD f cs p } := by
  intro cs
  induction cs with
  | nil =>
    intro p s _ _ _ _
    simp [descList, cellEditsD]
  | cons c cs ih =>
    intro p s hall hlast hcur hbound
    have hc : isCellNd c = true := hall c (List.mem_cons_self c cs)
    have hrest : ∀ d ∈ cs, isCellNd d = true :=
      fun d hd => hall d (List.mem_cons_of_mem c hd)
    match c, hc with
    | .cell k a i, _ =>
      rw [descList, show descNode (.cell k a i) p = [(.cell k a i, p)] from rfl]
      rw [List.foldl_append, List.foldl_cons, List.foldl_nil, stepDefault_cell]
      have hple : leLast p s.last = true := by
        rw [hlast]
        simp only [leLast, decide_eq_true_eq]
        simp only [ndsSize, ndSize] at hbound
        omega
      by_cases hh : a.highlight
      · rw [if_neg (by rw [hple, hcur, hh]; simp)]
        rw [ih (p + ndSize (.cell k a i)) s hrest hlast hcur
          (by simp only [ndsSize] at hbound ⊢; omega)]
        rw [cellEditsD]
        simp [hh]
      · rw [if_pos (by rw [hple, hcur]; simp [hh])]
        rw [ih (p + ndSize (.cell k a i))
          { s with edits := s.edits ++ [.cellE p (f a)] } hrest hlast hcur
          (by simp only [ndsSize] at hbound ⊢; omega)]
        rw [cellEditsD]
        simp [hh]

theorem foldD_rows (sel : Nat) (f : CellAttrs → CellAttrs) (L : Nat) :
    ∀ (rows : List Nd) (p : Nat) (s : DState), (∀ r ∈ rows, rowOfCells r = true) →
      s.last = some L → s.curTable = true → p + ndsSize rows ≤ L + 1 →
      (descList rows p).foldl (stepDefault sel f) s =
        { s with edits := s.edits ++ rowEditsD f rows p } := by
  intro rows
  induction rows with
  | nil =>
    intro p s _ _ _ _
    simp [descList, rowEditsD]
  | cons r rs ih =>
    intro p s hall hlast hcur hbound
    have hr : rowOfCells r = true := hall r (List.mem_cons_self r rs)
    have hrest : ∀ d ∈ rs, rowOfCells d = true :=
      fun d hd => hall d (List.mem_cons_of_mem r hd)
    match r, hr with
    | .row cs, hr =>
      have hcells : ∀ c ∈ cs, isCellNd c = true := by
        simpa [rowOfCells, List.all_eq_true] using hr
      rw [descList, show descNode (.row cs) p = (.row cs, p) :: descList cs (p + 1) from rfl]
      rw [List.foldl_append, List.foldl_cons, stepDefault_row]
      rw [foldD_cells sel f L cs (p + 1) s hcells hlast hcur
        (by simp only [ndsSize, ndSize] at hbound ⊢; omega)]
      rw [ih (p + ndSize (.row cs)) { s with edits := s.edits ++ cellEditsD f cs (p + 1) }
        hrest hlast hcur (by simp only [ndsSize] at hbound ⊢; omega)]
      rw [rowEditsD]
      simp

theorem foldD_post (sel : Nat) (f : CellAttrs → CellAttrs) (L : Nat) :
    ∀ (post : List Nd) (q : Nat) (s : DState), (∀ n ∈ post, topLevelWF n = true) →
      s.last = some L → L ≤ q → sel < L →
      (descList post q).foldl (stepDefault sel f) s = s := by
  intro post
  induction post with
  | nil => intro q s _ _ _ _; rfl
  | cons n post ih =>
    intro q s hall hlast hq hsel
    have hn : topLevelWF n = true := hall n (List.mem_cons_self n post)
    have hrest : ∀ m ∈ post, topLevelWF m = true :=
      fun m hm => hall m (List.mem_cons_of_mem n hm)
    rw [descList, List.foldl_append]
    match n, hn with
    | .blk sz, _ =>
      rw [show descNode (.blk sz) q = [(.blk sz, q)] from rfl]
      rw [List.foldl_cons, List.foldl_nil, stepDefault_blk]
      exact ih (q + ndSize (.blk sz)) s hrest hlast (by omega) hsel
    | .table ta rows, hn =>
      have hrows : ∀ r ∈ rows, rowOfCells r = true := by
        simpa [topLevelWF, List.all_eq_true] using hn
      rw [show descNode (.table ta rows) q = (.table ta rows, q) :: descList rows (q + 1) from rfl]
      rw [List.foldl_cons, stepDefault_table, if_neg (by omega)]
      rw [foldD_far sel f L (descList rows (q + 1)) s
        (fun x hx => ⟨noTable_descList_rows rows (q + 1) x hrows hx,
          by have := pos_lb_descList rows (q + 1) x hx; omega⟩) hlast]
      exact ih (q + ndSize (.table ta rows)) s hrest hlast (by omega) hsel

/-! ### Locating the table and applying the queued edits -/

theorem findParentTable_skip : ∀ (pre rest : List Nd) (base sel : Nat),
    base + ndsSize pre ≤ sel →
    findParentTable (pre ++ rest) base sel = findParentTable rest (base + ndsSize pre) sel := by
  intro pre
  induction pre with
  | nil => intro rest base sel _; simp [ndsSize]
  | cons n pre ih =>
    intro rest base sel hle
    match n with
    | .table ta rows =>
      rw [List.cons_append, findParentTable,
        if_neg (by simp only [ndsSize] at hle; omega)]
      have := ih rest (base + ndSize (.table ta rows)) sel
        (by simp only [ndsSize] at hle ⊢; omega)
      rw [this]
      congr 1
      simp only [ndsSize]
      omega
    | .row cs =>
      rw [List.cons_append, findParentTable]
      have := ih rest (base + ndSize (.row cs)) sel
        (by simp only [ndsSize] at hle ⊢; omega)
      rw [this]
      congr 1
      simp only [ndsSize]
      omega
    | .cell k a i =>
      rw [List.cons_append, findParentTable]
      have := ih rest (base + ndSize (.cell k a i)) sel
        (by simp only [ndsSize] at hle ⊢; omega)
      rw [this]
      congr 1
      simp only [ndsSize]
      omega
    | .blk sz =>
      rw [List.cons_append, findParentTable]
      have := ih rest (base + ndSize (.blk sz)) sel
        (by simp only [ndsSize] at hle ⊢; omega)
      rw [this]
      congr 1
      simp only [ndsSize]
      omega

theorem applyList_append : ∀ (pre rest : List Nd) (base : Nat) (e : EditO),
    base + ndsSize pre ≤ e.pos →
    applyList (pre ++ rest) base e = pre ++ applyList rest (base + ndsSize pre) e := by
  intro pre
  induction pre with
  | nil => intro rest base e _; simp [ndsSize]
  | cons n pre ih =>
    intro rest base e hle
    rw [List.cons_append, applyList, if_neg (by simp only [ndsSize] at hle; omega)]
    rw [ih rest (base + ndSize n) e (by simp only [ndsSize] at hle ⊢; omega)]
    simp only [List.cons_append, ndsSize]
    congr 3
    omega

theorem applyFold_frame : ∀ (es : List EditO) (pre rest : List Nd) (base : Nat),
    (∀ e ∈ es, base + ndsSize pre ≤ e.pos) →
    es.foldl (fun d e => applyList d base e) (pre ++ rest) =
      pre ++ es.foldl (fun d e => applyList d (base + ndsSize pre) e) rest := by
  intro es
  induction es with
  | nil => intro pre rest base _; rfl
  | cons e es ih =>
    intro pre rest base hall
    rw [List.foldl_cons, List.foldl_cons,
      applyList_append pre rest base e (hall e (List.mem_cons_self e es))]
    exact ih pre _ base (fun d hd => hall d (List.mem_cons_of_mem e hd))

theorem applyFold_head : ∀ (es : List EditO) (n : Nd) (ns : List Nd) (base : Nat),
    (∀ e ∈ es, e.pos < base + ndSize n) →
    es.foldl (fun d e => applyList d base e) (n :: ns) =
      (es.foldl (fun m e => applyNode m base e) n) :: ns := by
  intro es
  induction es with
  | nil => intro n ns base _; rfl
  | cons e es ih =>
    intro n ns base hall
    rw [List.foldl_cons, List.foldl_cons, applyList,
      if_pos (hall e (List.mem_cons_self e es))]
    exact ih (applyNode n base e) ns base
      (fun d hd => by
        rw [ndSize_applyNode]
        exact hall d (List.mem_cons_of_mem e hd))

theorem applyFold_skip : ∀ (es : List EditO) (n : Nd) (ns : List Nd) (base : Nat),
    (∀ e ∈ es, base + ndSize n ≤ e.pos) →
    es.foldl (fun d e => applyList d base e) (n :: ns) =
      n :: es.foldl (fun d e => applyList d (base + ndSize n) e) ns := by
  intro es
  induction es with
  | nil => intro n ns base _; rfl
  | cons e es ih =>
    intro n ns base hall
    rw [List.foldl_cons, List.foldl_cons, applyList,
      if_neg (by have := hall e (List.mem_cons_self e es); omega)]
    exact ih n _ base (fun d hd => hall d (List.mem_cons_of_mem e hd))

theorem applyFold_table : ∀ (es : List EditO) (ta : TableAttrs) (rows : List Nd) (base : Nat),
    (∀ e ∈ es, base < e.pos) →
    es.foldl (fun m e => applyNode m base e) (.table ta rows) =
      .table ta (es.foldl (fun l e => applyList l (base + 1) e) rows) := by
  intro es
  induction es with
  | nil => intro ta rows base _; rfl
  | cons e es ih =>
    intro ta rows base hall
    rw [List.foldl_cons, List.foldl_cons]
    rw [show applyNode (.table ta rows) base e = .table ta (applyList rows (base + 1) e) from by
      unfold applyNode
      rw [if_neg (by have := hall e (List.mem_cons_self e es); omega)]]
    exact ih ta _ base (fun d hd => hall d (List.mem_cons_of_mem e hd))

theorem applyFold_row : ∀ (es : List EditO) (cs : List Nd) (base : Nat),
    (∀ e ∈ es, base < e.pos) →
    es.foldl (fun m e => applyNode m base e) (.row cs) =
      .row (es.foldl (fun l e => applyList l (base + 1) e) cs) := by
  intro es
  induction es with
  | nil => intro cs base _; rfl
  | cons e es ih =>
    intro cs base hall
    rw [List.foldl_cons, List.foldl_cons]
    rw [show applyNode (.row cs) base e = .row (applyList cs (base + 1) e) from by
      unfold applyNode
      rw [if_neg (by have := hall e (List.mem_cons_self e es); omega)]]
    exact ih _ base (fun d hd => hall d (List.mem_cons_of_mem e hd))

theorem ndSize_updCellN (f : CellAttrs → CellAttrs) (n : Nd) :
    ndSize (updCellN f n) = ndSize n := by
  match n with
  | .cell k a i => by_cases h : a.highlight <;> simp [updCellN, h, ndSize]
  | .row cs => rfl
  | .table ta rows => rfl
  | .blk sz => rfl

theorem ndsSize_map_updCellN (f : CellAttrs → CellAttrs) (cs : List Nd) :
    ndsSize (cs.map (updCellN f)) = ndsSize cs := by
  induction cs with
  | nil => rfl
  | cons c cs ihc => simp only [List.map_cons, ndsSize, ndSize_updCellN, ihc]

theorem ndSize_updRowN (f : CellAttrs → CellAttrs) (n : Nd) :
    ndSize (updRowN f n) = ndSize n := by
  match n with
  | .row cs => simp only [updRowN, ndSize, ndsSize_map_updCellN]
  | .cell k a i => rfl
  | .table ta rows => rfl
  | .blk sz => rfl

theorem applyCellEdits (f : CellAttrs → CellAttrs) :
    ∀ (cs : List Nd) (p : Nat), (∀ c ∈ cs, isCellNd c = true) →
      (cellEditsD f cs p).foldl (fun l e => applyList l p e) cs = cs.map (updCellN f) := by
  intro cs
  induction cs with
  | nil => intro p _; rfl
  | cons c cs ih =>
    intro p hall
    have hc : isCellNd c = true := hall c (List.mem_cons_self c cs)
    have hrest : ∀ d ∈ cs, isCellNd d = true :=
      fun d hd => hall d (List.mem_cons_of_mem c hd)
    match c, hc with
    | .cell k a i, _ =>
      by_cases hh : a.highlight
      · rw [cellEditsD]
        rw [if_pos hh]
        rw [List.nil_append]
        rw [applyFold_skip _ _ _ _
          (fun e he => (cellEditsD_bounds f cs (p + ndSize (.cell k a i)) e he).1)]
        rw [List.map_cons]
        rw [show updCellN f (.cell k a i) = .cell k a i from by simp [updCellN, hh]]
        rw [ih (p + ndSize (.cell k a i)) hrest]
      · rw [cellEditsD]
        rw [if_neg hh]
        rw [List.cons_append, List.nil_append, List.foldl_cons]
        rw [show applyList (.cell k a i :: cs) p (.cellE p (f a))
            = .cell k (f a) i :: cs from by
          rw [applyList, if_pos (by simp [EditO.pos, ndSize])]
          rw [show applyNode (.cell k a i) p (.cellE p (f a)) = .cell k (f a) i from by
            unfold applyNode
            simp [EditO.pos]]]
        rw [show ndSize (.cell k a i) = ndSize (.cell k (f a) i) from rfl] at *
        rw [applyFold_skip _ _ _ _
          (fun e he => (cellEditsD_bounds f cs (p + ndSize (.cell k (f a) i)) e he).1)]
        rw [List.map_cons]
        rw [show updCellN f (.cell k a i) = .cell k (f a) i from by simp [updCellN, hh]]
        rw [ih (p + ndSize (.cell k (f a) i)) hrest]

theorem applyRowEdits (f : CellAttrs → CellAttrs) :
    ∀ (rows : List Nd) (p : Nat), (∀ r ∈ rows, rowOfCells r = true) →
      (rowEditsD f rows p).foldl (fun l e => applyList l p e) rows = rows.map (updRowN f) := by
  intro rows
  induction rows with
  | nil => intro p _; rfl
  | cons r rs ih =>
    intro p hall
    have hr : rowOfCells r = true := hall r (List.mem_cons_self r rs)
    have hrest : ∀ d ∈ rs, rowOfCells d = true :=
      fun d hd => hall d (List.mem_cons_of_mem r hd)
    match r, hr with
    | .row cs, hr =>
      have hcells : ∀ c ∈ cs, isCellNd c = true := by
        simpa [rowOfCells, List.all_eq_true] using hr
      rw [rowEditsD, List.foldl_append]
      rw [applyFold_head _ _ _ _
        (fun e he => by
          have := cellEditsD_bounds f cs (p + 1) e he
          simp only [ndSize]
          omega)]
      rw [applyFold_row _ _ _
        (fun e he => by
          have := cellEditsD_bounds f cs (p + 1) e he
          omega)]
      rw [applyCellEdits f cs (p + 1) hcells]
      have hsz : ndSize (.row (cs.map (updCellN f))) = ndSize (.row cs) := by
        simp only [ndSize, ndsSize_map_updCellN]
      rw [applyFold_skip _ _ _ _
        (fun e he => by
          have := (rowEditsD_bounds f rs (p + ndSize (.row cs)) e he).1
          omega)]
      rw [List.map_cons]
      rw [show updRowN f (.row cs) = .row (cs.map (updCellN f)) from rfl]
      rw [hsz]
      rw [ih (p + ndSize (.row cs)) hrest]

/-- The central lemma about the three default-setting commands: on a
document consisting of well-formed blocks around one table that encloses
the selection, the command finds that table, rewrites its attributes, and
rewrites exactly the non-highlighted cells of that table, leaving every
other top-level block (in particular every sibling table) untouched. -/
theorem scopedDefault_char
    (updT : TableAttrs → TableAttrs) (updC : CellAttrs → CellAttrs)
    (pre post rows : List Nd) (ta : TableAttrs) (sel : Nat)
    (hpre : ∀ n ∈ pre, topLevelWF n = true) (hpost : ∀ n ∈ post, topLevelWF n = true)
    (hrows : ∀ r ∈ rows, rowOfCells r = true)
    (h1 : ndsSize pre < sel) (h2 : sel < ndsSize pre + ndSize (.table ta rows)) :
    scopedDefault updT updC (pre ++ .table ta rows :: post) sel =
      some (pre ++ .table (updT ta) (rows.map (updRowN updC)) :: post, true) := by
  have hA : ndSize (.table ta rows) = 2 + ndsSize rows := rfl
  have hA2 : ndSize (.table (updT ta) rows) = 2 + ndsSize rows := rfl
  have hfind : findParentTable (pre ++ .table ta rows :: post) 0 sel
      = some (ndsSize pre, ta, rows) := by
    rw [findParentTable_skip pre _ 0 sel (by omega)]
    rw [findParentTable]
    rw [if_pos ⟨by omega, by rw [hA] at h2 ⊢; omega⟩]
    simp
  have hdoc1 : applyList (pre ++ .table ta rows :: post) 0 (.tableE (ndsSize pre) (updT ta))
      = pre ++ .table (updT ta) rows :: post := by
    rw [applyList_append pre _ 0 _ (by simp [EditO.pos])]
    rw [applyList]
    rw [if_pos (by simp only [EditO.pos, hA]; omega)]
    rw [show applyNode (.table ta rows) (0 + ndsSize pre) (.tableE (ndsSize pre) (updT ta))
        = .table (updT ta) rows from by
      unfold applyNode
      rw [if_pos (by simp [EditO.pos])]]
  have hdesc : descList (pre ++ .table (updT ta) rows :: post) 0
      = descList pre 0 ++
        (((.table (updT ta) rows, ndsSize pre) :: descList rows (ndsSize pre + 1)) ++
          descList post (ndsSize pre + ndSize (.table (updT ta) rows))) := by
    rw [descList_append]
    rw [descList]
    rw [show descNode (.table (updT ta) rows) (0 + ndsSize pre)
        = (.table (updT ta) rows, 0 + ndsSize pre)
          :: descList rows (0 + ndsSize pre + 1) from rfl]
    simp
  obtain ⟨L, hL⟩ := foldD_pre sel updC pre 0 ⟨none, false, []⟩ hpre rfl (by omega)
  have hstep : stepDefault sel updC ⟨L, false, []⟩ (.table (updT ta) rows, ndsSize pre)
      = ⟨some (ndsSize pre + ndSize (.table (updT ta) rows)), true, []⟩ := by
    rw [stepDefault_table, if_pos (by omega)]
    have hlt : sel < ndsSize pre + ndSize (.table (updT ta) rows) := by
      rw [hA] at h2; rw [hA2]; omega
    simp [hlt]
  have hfold1 : (descList rows (ndsSize pre + 1)).foldl (stepDefault sel updC)
      ⟨some (ndsSize pre + ndSize (.table (updT ta) rows)), true, []⟩
      = ⟨some (ndsSize pre + ndSize (.table (updT ta) rows)), true,
          rowEditsD updC rows (ndsSize pre + 1)⟩ := by
    have := foldD_rows sel updC (ndsSize pre + ndSize (.table (updT ta) rows)) rows
      (ndsSize pre + 1)
      ⟨some (ndsSize pre + ndSize (.table (updT ta) rows)), true, []⟩ hrows rfl rfl
      (by rw [hA2]; omega)
    simpa using this
  have hfold2 : (descList post (ndsSize pre + ndSize (.table (updT ta) rows))).foldl
      (stepDefault sel updC)
      ⟨some (ndsSize pre + ndSize (.table (updT ta) rows)), true,
        rowEditsD updC rows (ndsSize pre + 1)⟩
      = ⟨some (ndsSize pre + ndSize (.table (updT ta) rows)), true,
          rowEditsD updC rows (ndsSize pre + 1)⟩ := by
    exact foldD_post sel updC (ndsSize pre + ndSize (.table (updT ta) rows)) post
      (ndsSize pre + ndSize (.table (updT ta) rows))
      ⟨some (ndsSize pre + ndSize (.table (updT ta) rows)), true,
        rowEditsD updC rows (ndsSize pre + 1)⟩
      hpost rfl (le_refl _) (by rw [hA] at h2; rw [hA2]; omega)
  have happly : (rowEditsD updC rows (ndsSize pre + 1)).foldl (fun d e => applyList d 0 e)
      (pre ++ .table (updT ta) rows :: post)
      = pre ++ .table (updT ta) (rows.map (updRowN updC)) :: post := by
    rw [applyFold_frame _ pre _ 0 (fun e he => by
      have := (rowEditsD_bounds updC rows (ndsSize pre + 1) e he).1
      omega)]
    rw [applyFold_head _ _ _ _ (fun e he => by
      have := (rowEditsD_bounds updC rows (ndsSize pre + 1) e he).2
      rw [hA2]
      omega)]
    rw [applyFold_table _ _ _ _ (fun e he => by
      have := (rowEditsD_bounds updC rows (ndsSize pre + 1) e he).1
      omega)]
    rw [show (0 + ndsSize pre) + 1 = ndsSize pre + 1 from by omega]
    rw [applyRowEdits updC rows (ndsSize pre + 1) hrows]
  unfold scopedDefault
  rw [hfind]
  dsimp only
  rw [hdoc1, hdesc, List.foldl_append, List.foldl_append, hL, List.foldl_cons, hstep,
    hfold1, hfold2]
  dsimp only
  rw [happly]

/-! ### The alternation descent, segment by segment -/

/-- The edits the alternation descent queues over a row list, entered with
row counter `c`: each row bumps the counter, and its non-highlighted cells
receive the banding rewrite for the bumped counter. -/
def rowEditsA (c : Nat) : List Nd → Nat → List EditO
  | [], _ => []
  | .row cs :: rs, p =>
    cellEditsD (altBg (c + 1)) cs (p + 1) ++ rowEditsA (c + 1) rs (p + ndSize (.row cs))
  | .cell k a i :: rs, p => rowEditsA c rs (p + ndSize (.cell k a i))
  | .table ta rs2 :: rs, p => rowEditsA c rs (p + ndSize (.table ta rs2))
  | .blk sz :: rs, p => rowEditsA c rs (p + ndSize (.blk sz))

/-- The row list of a table after one alternation pass entered with counter
`c`: row number c + i + 1 (1-indexed within the scope) gives its
non-highlighted cells the banding value of its parity. -/
def altRows : List Nd → Nat → List Nd
  | [], _ => []
  | .row cs :: rs, c => .row (cs.map (updCellN (altBg (c + 1)))) :: altRows rs (c + 1)
  | .cell k a i :: rs, c => .cell k a i :: altRows rs c
  | .table ta rows :: rs, c => .table ta rows :: altRows rs c
  | .blk sz :: rs, c => .blk sz :: altRows rs c

/-- The table-attribute flip of alternateColor: the alternateColor flag is
set to "true" when it reads exactly "false", and kept otherwise. -/
def altTa (ta : TableAttrs) : TableAttrs :=
  if ta.alternateColor = "false" then { ta with alternateColor := "true" } else ta

theorem rowEditsA_bounds :
    ∀ (rows : List Nd) (c p : Nat) (e : EditO), e ∈ rowEditsA c rows p →
      p + 1 ≤ e.pos ∧ e.pos < p + ndsSize rows := by
  intro rows
  induction rows with
  | nil => intro c p e he; simp [rowEditsA] at he
  | cons r rs ih =>
    intro c p e he
    match r with
    | .row cs =>
      rw [rowEditsA] at he
      rcases List.mem_append.mp he with h | h
      · have := cellEditsD_bounds (altBg (c + 1)) cs (p + 1) e h
        simp only [ndsSize, ndSize] at this ⊢
        omega
      · have := ih (c + 1) (p + ndSize (.row cs)) e h
        simp only [ndsSize, ndSize] at this ⊢
        omega
    | .cell k a i =>
      rw [rowEditsA] at he
      have := ih c (p + ndSize (.cell k a i)) e he
      simp only [ndsSize] at this ⊢
      omega
    | .table ta rs2 =>
      rw [rowEditsA] at he
      have := ih c (p + ndSize (.table ta rs2)) e he
      simp only [ndsSize] at this ⊢
      omega
    | .blk sz =>
      rw [rowEditsA] at he
      have := ih c (p + ndSize (.blk sz)) e he
      simp only [ndsSize] at this ⊢
      omega

theorem foldA_noTable_noCur (sel : Nat) :
    ∀ (l : List (Nd × Nat)) (s : AState), (∀ x ∈ l, isTableNd x.1 = false) →
      s.curTable = false → l.foldl (stepAlternate sel) s = s := by
  intro l
  induction l with
  | nil => intro s _ _; rfl
  | cons x l ih =>
    intro s hall hcur
    have hx : isTableNd x.1 = false := hall x (List.mem_cons_self x l)
    have hstep : stepAlternate sel s x = s := by
      match x, hx with
      | (.row cs, q), _ => rw [stepAlternate_row]; simp [hcur]
      | (.cell k a i, q), _ => rw [stepAlternate_cell]; simp [hcur]
      | (.blk z, q), _ => exact stepAlternate_blk sel s z q
    rw [List.foldl_cons, hstep]
    exact ih s (fun y hy => hall y (List.mem_cons_of_mem x hy)) hcur

theorem foldA_far (sel : Nat) (L : Nat) :
    ∀ (l : List (Nd × Nat)) (s : AState),
      (∀ x ∈ l, isTableNd x.1 = false ∧ L < x.2) → s.last = some L →
      l.foldl (stepAlternate sel) s = s := by
  intro l
  induction l with
  | nil => intro s _ _; rfl
  | cons x l ih =>
    intro s hall hlast
    obtain ⟨hx, hq⟩ := hall x (List.mem_cons_self x l)
    have hstep : stepAlternate sel s x = s := by
      match x, hx, hq with
      | (.row cs, q), _, hq =>
        rw [stepAlternate_row, hlast]
        simp [leLast, Nat.not_le.mpr hq]
      | (.cell k a i, q), _, hq =>
        rw [stepAlternate_cell, hlast]
        simp [leLast, Nat.not_le.mpr hq]
      | (.blk z, q), _, hq => exact stepAlternate_blk sel s z q
    rw [List.foldl_cons, hstep]
    exact ih s (fun y hy => hall y (List.mem_cons_of_mem x hy)) hlast

theorem foldA_pre (sel : Nat) :
    ∀ (pre : List Nd) (p : Nat) (s : AState), (∀ n ∈ pre, topLevelWF n = true) →
      s.curTable = false → p + ndsSize pre ≤ sel →
      ∃ L, (descList pre p).foldl (stepAlternate sel) s = ⟨L, false, s.count, s.edits⟩ := by
  intro pre
  induction pre with
  | nil =>
    intro p s _ hcur _
    refine ⟨s.last, ?_⟩
    obtain ⟨a, b, c, d⟩ := s
    simp only [AState.curTable] at hcur
    simp [descList, hcur]
  | cons n pre ih =>
    intro p s hall hcur hsel
    have hn : topLevelWF n = true := hall n (List.mem_cons_self n pre)
    have hrest : ∀ m ∈ pre, topLevelWF m = true :=
      fun m hm => hall m (List.mem_cons_of_mem n hm)
    rw [descList, List.foldl_append]
    match n, hn with
    | .blk sz, _ =>
      rw [show descNode (.blk sz) p = [(.blk sz, p)] from rfl]
      rw [List.foldl_cons, List.foldl_nil, stepAlternate_blk]
      exact ih (p + ndSize (.blk sz)) s hrest hcur
        (by simp only [ndsSize] at hsel ⊢; omega)
    | .table ta rows, hn =>
      have hrows : ∀ r ∈ rows, rowOfCells r = true := by
        simpa [topLevelWF, List.all_eq_true] using hn
      rw [show descNode (.table ta rows) p = (.table ta rows, p) :: descList rows (p + 1) from rfl]
      rw [List.foldl_cons, stepAlternate_table]
      have hplt : p < sel := by
        have h2 : 2 ≤ ndSize (.table ta rows) := by simp [ndSize]
        simp only [ndsSize] at hsel
        omega
      have hfar : ¬(sel < p + ndSize (.table ta rows)) := by
        simp only [ndsSize] at hsel
        omega
      rw [if_pos hplt, if_neg hfar]
      have hmid : (descList rows (p + 1)).foldl (stepAlternate sel)
          { s with last := some (p + ndSize (.table ta rows)) }
          = { s with last := some (p + ndSize (.table ta rows)) } := by
        apply foldA_noTable_noCur
        · intro x hx
          exact noTable_descList_rows rows (p + 1) x hrows hx
        · simp [hcur]
      rw [hmid]
      have := ih (p + ndSize (.table ta rows))
        { s with last := some (p + ndSize (.table ta rows)) }
        hrest (by simp [hcur]) (by simp only [ndsSize] at hsel ⊢; omega)
      simpa using this

theorem foldA_cells (sel : Nat) (L : Nat) :
    ∀ (cs : List Nd) (p : Nat) (s : AState), (∀ c ∈ cs, isCellNd c = true) →
      s.last = some L → s.curTable = true → p + ndsSize cs ≤ L + 1 →
      (descList cs p).foldl (stepAlternate sel) s =
        { s with edits := s.edits ++ cellEditsD (altBg s.count) cs p } := by
  intro cs
  induction cs with
  | nil =>
    intro p s _ _ _ _
    simp [descList, cellEditsD]
  | cons c cs ih =>
    intro p s hall hlast hcur hbound
    have hc : isCellNd c = true := hall c (List.mem_cons_self c cs)
    have hrest : ∀ d ∈ cs, isCellNd d = true :=
      fun d hd => hall d (List.mem_cons_of_mem c hd)
    match c, hc with
    | .cell k a i, _ =>
      rw [descList, show descNode (.cell k a i) p = [(.cell k a i, p)] from rfl]
      rw [List.foldl_append, List.foldl_cons, List.foldl_nil, stepAlternate_cell]
      have hple : leLast p s.last = true := by
        rw [hlast]
        simp only [leLast, decide_eq_true_eq]
        simp only [ndsSize, ndSize] at hbound
        omega
      by_cases hh : a.highlight
      · rw [if_neg (by rw [hple, hcur, hh]; simp)]
        rw [ih (p + ndSize (.cell k a i)) s hrest hlast hcur
          (by simp only [ndsSize] at hbound ⊢; omega)]
        rw [cellEditsD]
        simp [hh]
      · rw [if_pos (by rw [hple, hcur]; simp [hh])]
        rw [ih (p + ndSize (.cell k a i))
          { s with edits := s.edits ++ [.cellE p (altBg s.count a)] } hrest hlast hcur
          (by simp only [ndsSize] at hbound ⊢; omega)]
        rw [cellEditsD]
        simp [hh]

theorem foldA_rows (sel : Nat) (L : Nat) :
    ∀ (rows : List Nd) (p : Nat) (s : AState), (∀ r ∈ rows, rowOfCells r = true) →
      s.last = some L → s.curTable = true → p + ndsSize rows ≤ L + 1 →
      (descList rows p).foldl (stepAlternate sel) s =
        { s with count := s.count + rows.length,
                 edits := s.edits ++ rowEditsA s.count rows p } := by
  intro rows
  induction rows with
  | nil =>
    intro p s _ _ _ _
    simp [descList, rowEditsA]
  | cons r rs ih =>
    intro p s hall hlast hcur hbound
    have hr : rowOfCells r = true := hall r (List.mem_cons_self r rs)
    have hrest : ∀ d ∈ rs, rowOfCells d = true :=
      fun d hd => hall d (List.mem_cons_of_mem r hd)
    match r, hr with
    | .row cs, hr =>
      have hcells : ∀ c ∈ cs, isCellNd c = true := by
        simpa [rowOfCells, List.all_eq_true] using hr
      rw [descList, show descNode (.row cs) p = (.row cs, p) :: descList cs (p + 1) from rfl]
      rw [List.foldl_append, List.foldl_cons, stepAlternate_row]
      have hple : leLast p s.last = true := by
        rw [hlast]
        simp only [leLast, decide_eq_true_eq]
        simp only [ndsSize, ndSize] at hbound
        omega
      rw [if_pos (by rw [hple, hcur]; simp)]
      rw [foldA_cells sel L cs (p + 1) { s with count := s.count + 1 } hcells hlast hcur
        (by simp only [ndsSize, ndSize] at hbound ⊢; omega)]
      rw [ih (p + ndSize (.row cs))
        { s with count := s.count + 1,
                 edits := s.edits ++ cellEditsD (altBg (s.count + 1)) cs (p + 1) }
        hrest hlast hcur (by simp only [ndsSize] at hbound ⊢; omega)]
      rw [rowEditsA]
      simp [List.length_cons]
      omega

theorem foldA_post (sel : Nat) (L : Nat) :
    ∀ (post : List Nd) (q : Nat) (s : AState), (∀ n ∈ post, topLevelWF n = true) →
      s.last = some L → L ≤ q → sel < L →
      (descList post q).foldl (stepAlternate sel) s = s := by
  intro post
  induction post with
  | nil => intro q s _ _ _ _; rfl
  | cons n post ih =>
    intro q s hall hlast hq hsel
    have hn : topLevelWF n = true := hall n (List.mem_cons_self n post)
    have hrest : ∀ m ∈ post, topLevelWF m = true :=
      fun m hm => hall m (List.mem_cons_of_mem n hm)
    rw [descList, List.foldl_append]
    match n, hn with
    | .blk sz, _ =>
      rw [show descNode (.blk sz) q = [(.blk sz, q)] from rfl]
      rw [List.foldl_cons, List.foldl_nil, stepAlternate_blk]
      exact ih (q + ndSize (.blk sz)) s hrest hlast (by omega) hsel
    | .table ta rows, hn =>
      have hrows : ∀ r ∈ rows, rowOfCells r = true := by
        simpa [topLevelWF, List.all_eq_true] using hn
      rw [show descNode (.table ta rows) q = (.table ta rows, q) :: descList rows (q + 1) from rfl]
      rw [List.foldl_cons, stepAlternate_table, if_neg (by omega)]
      rw [foldA_far sel L (descList rows (q + 1)) s
        (fun x hx => ⟨noTable_descList_rows rows (q + 1) x hrows hx,
          by have := pos_lb_descList rows (q + 1) x hx; omega⟩) hlast]
      exact ih (q + ndSize (.table ta rows)) s hrest hlast (by omega) hsel

theorem applyRowEditsA :
    ∀ (rows : List Nd) (p c : Nat), (∀ r ∈ rows, rowOfCells r = true) →
      (rowEditsA c rows p).foldl (fun l e => applyList l p e) rows = altRows rows c := by
  intro rows
  induction rows with
  | nil => intro p c _; rfl
  | cons r rs ih =>
    intro p c hall
    have hr : rowOfCells r = true := hall r (List.mem_cons_self r rs)
    have hrest : ∀ d ∈ rs, rowOfCells d = true :=
      fun d hd => hall d (List.mem_cons_of_mem r hd)
    match r, hr with
    | .row cs, hr =>
      have hcells : ∀ c2 ∈ cs, isCellNd c2 = true := by
        simpa [rowOfCells, List.all_eq_true] using hr
      rw [rowEditsA, List.foldl_append]
      rw [applyFold_head _ _ _ _
        (fun e he => by
          have := cellEditsD_bounds (altBg (c + 1)) cs (p + 1) e he
          simp only [ndSize]
          omega)]
      rw [applyFold_row _ _ _
        (fun e he => by
          have := cellEditsD_bounds (altBg (c + 1)) cs (p + 1) e he
          omega)]
      rw [applyCellEdits (altBg (c + 1)) cs (p + 1) hcells]
      have hsz : ndSize (.row (cs.map (updCellN (altBg (c + 1))))) = ndSize (.row cs) := by
        simp only [ndSize, ndsSize_map_updCellN]
      rw [applyFold_skip _ _ _ _
        (fun e he => by
          have := (rowEditsA_bounds rs (c + 1) (p + ndSize (.row cs)) e he).1
          omega)]
      rw [altRows]
      rw [hsz]
      rw [ih (p + ndSize (.row cs)) (c + 1) hrest]

/-- The central lemma about alternateColor: on a document of well-formed
blocks around one selection-enclosing table, it flips the alternateColor
flag (when it reads "false"), rewrites the background of every
non-highlighted cell by the parity of its 1-indexed row, and leaves every
other top-level block untouched. -/
theorem alternateColor_char
    (pre post rows : List Nd) (ta : TableAttrs) (sel : Nat)
    (hpre : ∀ n ∈ pre, topLevelWF n = true) (hpost : ∀ n ∈ post, topLevelWF n = true)
    (hrows : ∀ r ∈ rows, rowOfCells r = true)
    (h1 : ndsSize pre < sel) (h2 : sel < ndsSize pre + ndSize (.table ta rows)) :
    alternateColor (pre ++ .table ta rows :: post) sel =
      some (pre ++ .table (altTa ta) (altRows rows 0) :: post, true) := by
  have hA : ndSize (.table ta rows) = 2 + ndsSize rows := rfl
  have hfind : findParentTable (pre ++ .table ta rows :: post) 0 sel
      = some (ndsSize pre, ta, rows) := by
    rw [findParentTable_skip pre _ 0 sel (by omega)]
    rw [findParentTable]
    rw [if_pos ⟨by omega, by rw [hA] at h2 ⊢; omega⟩]
    simp
  have hdoc1 : applyList (pre ++ .table ta rows :: post) 0 (.tableE (ndsSize pre) ta)
      = pre ++ .table ta rows :: post := by
    rw [applyList_append pre _ 0 _ (by simp [EditO.pos])]
    rw [applyList]
    rw [if_pos (by simp only [EditO.pos, hA]; omega)]
    rw [show applyNode (.table ta rows) (0 + ndsSize pre) (.tableE (ndsSize pre) ta)
        = .table ta rows from by
      unfold applyNode
      rw [if_pos (by simp [EditO.pos])]]
  have hdesc : descList (pre ++ .table ta rows :: post) 0
      = descList pre 0 ++
        (((.table ta rows, ndsSize pre) :: descList rows (ndsSize pre + 1)) ++
          descList post (ndsSize pre + ndSize (.table ta rows))) := by
    rw [descList_append]
    rw [descList]
    rw [show descNode (.table ta rows) (0 + ndsSize pre)
        = (.table ta rows, 0 + ndsSize pre)
          :: descList rows (0 + ndsSize pre + 1) from rfl]
    simp
  obtain ⟨L, hL⟩ := foldA_pre sel pre 0 ⟨none, false, 0, []⟩ hpre rfl (by omega)
  have hstep : stepAlternate sel ⟨L, false, 0, []⟩ (.table ta rows, ndsSize pre)
      = ⟨some (ndsSize pre + ndSize (.table ta rows)), true, 0,
          if ta.alternateColor = "false"
          then [.tableE (ndsSize pre) { ta with alternateColor := "true" }]
          else []⟩ := by
    rw [stepAlternate_table, if_pos (by omega), if_pos (by omega)]
    by_cases hflag : ta.alternateColor = "false" <;> simp [hflag]
  have hfold1 : (descList rows (ndsSize pre + 1)).foldl (stepAlternate sel)
      ⟨some (ndsSize pre + ndSize (.table ta rows)), true, 0,
        if ta.alternateColor = "false"
        then [.tableE (ndsSize pre) { ta with alternateColor := "true" }]
        else []⟩
      = ⟨some (ndsSize pre + ndSize (.table ta rows)), true, rows.length,
          (if ta.alternateColor = "false"
           then [.tableE (ndsSize pre) { ta with alternateColor := "true" }]
           else []) ++ rowEditsA 0 rows (ndsSize pre + 1)⟩ := by
    have := foldA_rows sel (ndsSize pre + ndSize (.table ta rows)) rows
      (ndsSize pre + 1)
      ⟨some (ndsSize pre + ndSize (.table ta rows)), true, 0,
        if ta.alternateColor = "false"
        then [.tableE (ndsSize pre) { ta with alternateColor := "true" }]
        else []⟩ hrows rfl rfl (by rw [hA]; omega)
    simpa using this
  have hfold2 : (descList post (ndsSize pre + ndSize (.table ta rows))).foldl
      (stepAlternate sel)
      ⟨some (ndsSize pre + ndSize (.table ta rows)), true, rows.length,
        (if ta.alternateColor = "false"
         then [.tableE (ndsSize pre) { ta with alternateColor := "true" }]
         else []) ++ rowEditsA 0 rows (ndsSize pre + 1)⟩
      = ⟨some (ndsSize pre + ndSize (.table ta rows)), true, rows.length,
          (if ta.alternateColor = "false"
           then [.tableE (ndsSize pre) { ta with alternateColor := "true" }]
           else []) ++ rowEditsA 0 rows (ndsSize pre + 1)⟩ := by
    exact foldA_post sel (ndsSize pre + ndSize (.table ta rows)) post
      (ndsSize pre + ndSize (.table ta rows)) _
      hpost rfl (le_refl _) (by rw [hA] at h2 ⊢; omega)
  have hmid : (if ta.alternateColor = "false"
      then [EditO.tableE (ndsSize pre) { ta with alternateColor := "true" }]
      else []).foldl (fun d e => applyList d 0 e)
      (pre ++ .table ta rows :: post)
      = pre ++ .table (altTa ta) rows :: post := by
    by_cases hflag : ta.alternateColor = "false"
    · rw [if_pos hflag, List.foldl_cons, List.foldl_nil]
      rw [applyList_append pre _ 0 _ (by simp [EditO.pos])]
      rw [applyList]
      rw [if_pos (by simp only [EditO.pos, hA]; omega)]
      rw [show applyNode (.table ta rows) (0 + ndsSize pre)
          (.tableE (ndsSize pre) { ta with alternateColor := "true" })
          = .table { ta with alternateColor := "true" } rows from by
        unfold applyNode
        rw [if_pos (by simp [EditO.pos])]]
      rw [altTa, if_pos hflag]
    · rw [if_neg hflag, List.foldl_nil, altTa, if_neg hflag]
  have happly : (rowEditsA 0 rows (ndsSize pre + 1)).foldl (fun d e => applyList d 0 e)
      (pre ++ .table (altTa ta) rows :: post)
      = pre ++ .table (altTa ta) (altRows rows 0) :: post := by
    rw [applyFold_frame _ pre _ 0 (fun e he => by
      have := (rowEditsA_bounds rows 0 (ndsSize pre + 1) e he).1
      omega)]
    rw [applyFold_head _ _ _ _ (fun e he => by
      have := (rowEditsA_bounds rows 0 (ndsSize pre + 1) e he).2
      rw [show ndSize (.table (altTa ta) rows) = 2 + ndsSize rows from rfl]
      omega)]
    rw [applyFold_table _ _ _ _ (fun e he => by
      have := (rowEditsA_bounds rows 0 (ndsSize pre + 1) e he).1
      omega)]
    rw [show (0 + ndsSize pre) + 1 = ndsSize pre + 1 from by omega]
    rw [applyRowEditsA rows (ndsSize pre + 1) 0 hrows]
  unfold alternateColor
  rw [hfind]
  dsimp only
  rw [hdoc1, hdesc, List.foldl_append, List.foldl_append, hL, List.foldl_cons, hstep,
    hfold1, hfold2]
  dsimp only
  rw [List.foldl_append, hmid, happly]

/-! ### Pointwise lookups -/

theorem nodeAtList_append_right : ∀ (pre rest : List Nd) (base p : Nat),
    base + ndsSize pre ≤ p →
    nodeAtList (pre ++ rest) base p = nodeAtList rest (base + ndsSize pre) p := by
  intro pre
  induction pre with
  | nil => intro rest base p _; simp [ndsSize]
  | cons n pre ih =>
    intro rest base p hle
    rw [List.cons_append, nodeAtList, if_neg (by simp only [ndsSize] at hle; omega)]
    rw [ih rest (base + ndSize n) p (by simp only [ndsSize] at hle ⊢; omega)]
    congr 1
    simp only [ndsSize]
    omega

mutual

theorem cellAt_applyList : ∀ (ns : List Nd) (base p q : Nat) (v : CellAttrs)
    (k : CellKind) (a : CellAttrs) (i : Nat),
    nodeAtList ns base p = some (.cell k a i) →
    nodeAtList (applyList ns base (.cellE q v)) base p =
      some (.cell k (if p = q then v else a) i)
  | [], base, p, q, v, k, a, i, h => by simp [nodeAtList] at h
  | n :: ns, base, p, q, v, k, a, i, h => by
    rw [nodeAtList] at h
    by_cases hq : (EditO.cellE q v).pos < base + ndSize n
    · rw [applyList, if_pos hq]
      rw [nodeAtList, ndSize_applyNode]
      by_cases hp : p < base + ndSize n
      · rw [if_pos hp]
        rw [if_pos hp] at h
        exact cellAt_applyNode n base p q v k a i h
      · rw [if_neg hp]
        rw [if_neg hp] at h
        rw [if_neg (by simp only [EditO.pos] at hq; omega)]
        exact h
    · rw [applyList, if_neg hq]
      rw [nodeAtList]
      by_cases hp : p < base + ndSize n
      · rw [if_pos hp]
        rw [if_pos hp] at h
        rw [if_neg (by simp only [EditO.pos] at hq; omega)]
        exact h
      · rw [if_neg hp]
        rw [if_neg hp] at h
        exact cellAt_applyList ns (base + ndSize n) p q v k a i h

theorem cellAt_applyNode : ∀ (n : Nd) (base p q : Nat) (v : CellAttrs)
    (k : CellKind) (a : CellAttrs) (i : Nat),
    nodeAtNode n base p = some (.cell k a i) →
    nodeAtNode (applyNode n base (.cellE q v)) base p =
      some (.cell k (if p = q then v else a) i)
  | .cell k0 a0 i0, base, p, q, v, k, a, i, h => by
    rw [nodeAtNode] at h
    by_cases hp : p = base
    · rw [if_pos hp] at h
      have hinj := Option.some.inj h
      injection hinj with h1 h2 h3
      rw [h1, h2, h3]
      by_cases hqb : q = base
      · rw [show applyNode (.cell k a i) base (.cellE q v) = .cell k v i from by
          unfold applyNode
          rw [if_pos (by simp [EditO.pos, hqb])]]
        rw [nodeAtNode, if_pos hp]
        rw [if_pos (by omega)]
      · rw [show applyNode (.cell k a i) base (.cellE q v) = .cell k a i from by
          unfold applyNode
          rw [if_neg (by simp [EditO.pos, hqb])]]
        rw [nodeAtNode, if_pos hp]
        rw [if_neg (by omega)]
    · rw [if_neg hp] at h
      simp at h
  | .table ta rows, base, p, q, v, k, a, i, h => by
    rw [nodeAtNode] at h
    by_cases hp : p = base
    · rw [if_pos hp] at h
      simp at h
    · rw [if_neg hp] at h
      by_cases hqb : q = base
      · rw [show applyNode (.table ta rows) base (.cellE q v) = .table ta rows from by
          unfold applyNode
          rw [if_pos (by simp [EditO.pos, hqb])]]
        rw [nodeAtNode, if_neg hp]
        rw [if_neg (by omega)]
        exact h
      · rw [show applyNode (.table ta rows) base (.cellE q v)
            = .table ta (applyList rows (base + 1) (.cellE q v)) from by
          unfold applyNode
          rw [if_neg (by simp [EditO.pos, hqb])]]
        rw [nodeAtNode, if_neg hp]
        exact cellAt_applyList rows (base + 1) p q v k a i h
  | .row cells, base, p, q, v, k, a, i, h => by
    rw [nodeAtNode] at h
    by_cases hp : p = base
    · rw [if_pos hp] at h
      simp at h
    · rw [if_neg hp] at h
      by_cases hqb : q = base
      · rw [show applyNode (.row cells) base (.cellE q v) = .row cells from by
          unfold applyNode
          rw [if_pos (by simp [EditO.pos, hqb])]]
        rw [nodeAtNode, if_neg hp]
        rw [if_neg (by omega)]
        exact h
      · rw [show applyNode (.row cells) base (.cellE q v)
            = .row (applyList cells (base + 1) (.cellE q v)) from by
          unfold applyNode
          rw [if_neg (by simp [EditO.pos, hqb])]]
        rw [nodeAtNode, if_neg hp]
        exact cellAt_applyList cells (base + 1) p q v k a i h
  | .blk sz, base, p, q, v, k, a, i, h => by
    rw [nodeAtNode] at h
    by_cases hp : p = base
    · rw [if_pos hp] at h
      simp at h
    · rw [if_neg hp] at h
      simp at h

end

theorem isCellNd_applyNode (n : Nd) (base : Nat) (e : EditO) :
    isCellNd (applyNode n base e) = isCellNd n := by
  unfold applyNode
  by_cases h : e.pos = base
  · rw [if_pos h]; cases n <;> cases e <;> rfl
  · rw [if_neg h]; cases n <;> rfl

theorem allCells_applyList : ∀ (cs : List Nd) (base : Nat) (e : EditO),
    (applyList cs base e).all isCellNd = cs.all isCellNd := by
  intro cs
  induction cs with
  | nil => intro base e; rfl
  | cons c cs ih =>
    intro base e
    rw [applyList]
    by_cases h : e.pos < base + ndSize c
    · rw [if_pos h]; simp [List.all_cons, isCellNd_applyNode]
    · rw [if_neg h]; simp [List.all_cons, ih]

theorem rowOfCells_applyNode (n : Nd) (base : Nat) (e : EditO) :
    rowOfCells (applyNode n base e) = rowOfCells n := by
  unfold applyNode
  by_cases h : e.pos = base
  · rw [if_pos h]; cases n <;> cases e <;> rfl
  · rw [if_neg h]
    cases n with
    | row cells => simp [rowOfCells, allCells_applyList]
    | table a rows => rfl
    | cell k a i => rfl
    | blk sz => rfl

theorem allRows_applyList : ∀ (rows : List Nd) (base : Nat) (e : EditO),
    (∀ r ∈ rows, rowOfCells r = true) →
    (∀ r ∈ applyList rows base e, rowOfCells r = true) := by
  intro rows
  induction rows with
  | nil => intro base e _ r hr; simp [applyList] at hr
  | cons n rows ih =>
    intro base e hall r hr
    rw [applyList] at hr
    by_cases h : e.pos < base + ndSize n
    · rw [if_pos h] at hr
      rcases List.mem_cons.mp hr with h2 | h2
      · subst h2
        rw [rowOfCells_applyNode]
        exact hall n (List.mem_cons_self n rows)
      · exact hall r (List.mem_cons_of_mem n h2)
    · rw [if_neg h] at hr
      rcases List.mem_cons.mp hr with h2 | h2
      · rw [h2]; exact hall n (List.mem_cons_self n rows)
      · exact ih (base + ndSize n) e
          (fun d hd => hall d (List.mem_cons_of_mem n hd)) r h2

theorem ndsSize_map_updRowN (f : CellAttrs → CellAttrs) (rows : List Nd) :
    ndsSize (rows.map (updRowN f)) = ndsSize rows := by
  induction rows with
  | nil => rfl
  | cons r rows ih => simp only [List.map_cons, ndsSize, ndSize_updRowN, ih]

theorem ndsSize_altRows : ∀ (rows : List Nd) (c : Nat),
    ndsSize (altRows rows c) = ndsSize rows := by
  intro rows
  induction rows with
  | nil => intro c; rfl
  | cons r rows ih =>
    intro c
    match r with
    | .row cs =>
      rw [altRows]
      simp only [ndsSize, ndSize, ndsSize_map_updCellN, ih]
    | .cell k a i => rw [altRows]; simp only [ndsSize, ih]
    | .table ta rws => rw [altRows]; simp only [ndsSize, ih]
    | .blk sz => rw [altRows]; simp only [ndsSize, ih]

theorem nodeAtNode_self (n : Nd) (base : Nat) : nodeAtNode n base base = some n := by
  cases n with
  | table a rows => rw [nodeAtNode, if_pos rfl]
  | row cells => rw [nodeAtNode, if_pos rfl]
  | cell k a i => rw [nodeAtNode, if_pos rfl]
  | blk sz => rw [nodeAtNode, if_pos rfl]

theorem cellAt_map_updCellN : ∀ (cs : List Nd) (base p : Nat) (f : CellAttrs → CellAttrs)
    (k : CellKind) (a : CellAttrs) (i : Nat),
    (∀ c ∈ cs, isCellNd c = true) →
    nodeAtList cs base p = some (.cell k a i) →
    nodeAtList (cs.map (updCellN f)) base p = some (updCellN f (.cell k a i)) := by
  intro cs
  induction cs with
  | nil => intro base p f k a i _ h; simp [nodeAtList] at h
  | cons c cs ih =>
    intro base p f k a i hall h
    have hc : isCellNd c = true := hall c (List.mem_cons_self c cs)
    have hrest : ∀ d ∈ cs, isCellNd d = true :=
      fun d hd => hall d (List.mem_cons_of_mem c hd)
    match c, hc with
    | .cell k0 a0 i0, _ =>
      rw [nodeAtList] at h
      rw [List.map_cons, nodeAtList, ndSize_updCellN]
      by_cases hp : p < base + ndSize (.cell k0 a0 i0)
      · rw [if_pos hp] at h ⊢
        rw [nodeAtNode] at h
        by_cases hpb : p = base
        · rw [if_pos hpb] at h
          have hinj := Option.some.inj h
          injection hinj with h1 h2 h3
          rw [h1, h2, h3, hpb]
          exact nodeAtNode_self _ base
        · rw [if_neg hpb] at h
          simp at h
      · rw [if_neg hp] at h ⊢
        exact ih (base + ndSize (.cell k0 a0 i0)) p f k a i hrest h

theorem cellAt_map_updRowN : ∀ (rows : List Nd) (base p : Nat) (f : CellAttrs → CellAttrs)
    (k : CellKind) (a : CellAttrs) (i : Nat),
    (∀ r ∈ rows, rowOfCells r = true) →
    nodeAtList rows base p = some (.cell k a i) →
    nodeAtList (rows.map (updRowN f)) base p = some (updCellN f (.cell k a i)) := by
  intro rows
  induction rows with
  | nil => intro base p f k a i _ h; simp [nodeAtList] at h
  | cons r rows ih =>
    intro base p f k a i hall h
    have hr : rowOfCells r = true := hall r (List.mem_cons_self r rows)
    have hrest : ∀ d ∈ rows, rowOfCells d = true :=
      fun d hd => hall d (List.mem_cons_of_mem r hd)
    match r, hr with
    | .row cs, hr =>
      have hcells : ∀ c ∈ cs, isCellNd c = true := by
        simpa [rowOfCells, List.all_eq_true] using hr
      rw [nodeAtList] at h
      rw [List.map_cons, nodeAtList, ndSize_updRowN]
      by_cases hp : p < base + ndSize (.row cs)
      · rw [if_pos hp] at h ⊢
        rw [nodeAtNode] at h
        by_cases hpb : p = base
        · rw [if_pos hpb] at h
          simp at h
        · rw [if_neg hpb] at h
          rw [show updRowN f (.row cs) = .row (cs.map (updCellN f)) from rfl]
          rw [nodeAtNode, if_neg hpb]
          exact cellAt_map_updCellN cs (base + 1) p f k a i hcells h
      · rw [if_neg hp] at h ⊢
        exact ih (base + ndSize (.row cs)) p f k a i hrest h

theorem cellAt_altRows : ∀ (rows : List Nd) (base p c : Nat)
    (k : CellKind) (a : CellAttrs) (i : Nat),
    (∀ r ∈ rows, rowOfCells r = true) →
    nodeAtList rows base p = some (.cell k a i) →
    ∃ c2, nodeAtList (altRows rows c) base p = some (updCellN (altBg c2) (.cell k a i)) := by
  intro rows
  induction rows with
  | nil => intro base p c k a i _ h; simp [nodeAtList] at h
  | cons r rows ih =>
    intro base p c k a i hall h
    have hr : rowOfCells r = true := hall r (List.mem_cons_self r rows)
    have hrest : ∀ d ∈ rows, rowOfCells d = true :=
      fun d hd => hall d (List.mem_cons_of_mem r hd)
    match r, hr with
    | .row cs, hr =>
      have hcells : ∀ c2 ∈ cs, isCellNd c2 = true := by
        simpa [rowOfCells, List.all_eq_true] using hr
      rw [nodeAtList] at h
      rw [altRows, nodeAtList,
        show ndSize (.row (cs.map (updCellN (altBg (c + 1))))) = ndSize (.row cs) from by
          simp only [ndSize, ndsSize_map_updCellN]]
      by_cases hp : p < base + ndSize (.row cs)
      · rw [if_pos hp] at h ⊢
        rw [nodeAtNode] at h
        by_cases hpb : p = base
        · rw [if_pos hpb] at h
          simp at h
        · rw [if_neg hpb] at h
          refine ⟨c + 1, ?_⟩
          rw [nodeAtNode, if_neg hpb]
          exact cellAt_map_updCellN cs (base + 1) p (altBg (c + 1)) k a i hcells h
      · rw [if_neg hp] at h ⊢
        exact ih (base + ndSize (.row cs)) p (c + 1) k a i hrest h

/-- The forEachCell fold with the selection snapshot `doc0` separated from
the evolving transaction document `d`, for reasoning by induction. -/
def forEachAux (doc0 : List Nd) (f : CellAttrs → CellAttrs) (ps : List Nat)
    (d : List Nd) : List Nd :=
  ps.foldl (fun d p =>
    match nodeAtList doc0 0 p with
    | some (.cell _ a _) => applyList d 0 (.cellE p (f a))
    | _ => d) d

theorem forEachCellEdit_eq_aux (doc : List Nd) (ps : List Nat) (f : CellAttrs → CellAttrs) :
    forEachCellEdit doc ps f = forEachAux doc f ps doc := rfl

theorem forEachAux_notmem : ∀ (ps : List Nat) (doc0 d : List Nd) (f : CellAttrs → CellAttrs)
    (x : Nat) (k : CellKind) (a : CellAttrs) (i : Nat),
    nodeAtList d 0 x = some (.cell k a i) → x ∉ ps →
    nodeAtList (forEachAux doc0 f ps d) 0 x = some (.cell k a i) := by
  intro ps
  induction ps with
  | nil => intro doc0 d f x k a i h _; exact h
  | cons q ps ih =>
    intro doc0 d f x k a i h hx
    have hxq : x ≠ q := fun hc => hx (hc ▸ List.mem_cons_self q ps)
    have hxps : x ∉ ps := fun hc => hx (List.mem_cons_of_mem q hc)
    rw [forEachAux, List.foldl_cons]
    rcases hm : nodeAtList doc0 0 q with _ | nd
    · exact ih doc0 d f x k a i h hxps
    · match nd with
      | .cell k2 a2 i2 =>
        have h2 := cellAt_applyList d 0 x q (f a2) k a i h
        rw [if_neg hxq] at h2
        exact ih doc0 _ f x k a i h2 hxps
      | .table ta rows => exact ih doc0 d f x k a i h hxps
      | .row cs => exact ih doc0 d f x k a i h hxps
      | .blk sz => exact ih doc0 d f x k a i h hxps

theorem forEachAux_mem : ∀ (ps : List Nat) (doc0 d : List Nd) (f : CellAttrs → CellAttrs)
    (x : Nat) (k : CellKind) (a a1 : CellAttrs) (i : Nat),
    nodeAtList doc0 0 x = some (.cell k a i) →
    nodeAtList d 0 x = some (.cell k a1 i) →
    x ∈ ps →
    nodeAtList (forEachAux doc0 f ps d) 0 x = some (.cell k (f a) i) := by
  intro ps
  induction ps with
  | nil => intro doc0 d f x k a a1 i _ _ hx; simp at hx
  | cons q ps ih =>
    intro doc0 d f x k a a1 i h0 h hx
    rw [forEachAux, List.foldl_cons]
    by_cases hxq : x = q
    · rw [show nodeAtList doc0 0 q = some (.cell k a i) from hxq ▸ h0]
      have h2 := cellAt_applyList d 0 x q (f a) k a1 i h
      rw [if_pos hxq] at h2
      by_cases hxps : x ∈ ps
      · exact ih doc0 _ f x k a (f a) i h0 h2 hxps
      · exact forEachAux_notmem ps doc0 _ f x k (f a) i h2 hxps
    · have hxps : x ∈ ps := by
        rcases List.mem_cons.mp hx with h2 | h2
        · exact absurd h2 hxq
        · exact h2
      rcases hm : nodeAtList doc0 0 q with _ | nd
      · exact ih doc0 d f x k a a1 i h0 h hxps
      · match nd with
        | .cell k2 a2 i2 =>
          have h2 := cellAt_applyList d 0 x q (f a2) k a1 i h
          rw [if_neg hxq] at h2
          exact ih doc0 _ f x k a a1 i h0 h2 hxps
        | .table ta rows => exact ih doc0 d f x k a a1 i h0 h hxps
        | .row cs => exact ih doc0 d f x k a a1 i h0 h hxps
        | .blk sz => exact ih doc0 d f x k a a1 i h0 h hxps

theorem applyEdit_mid (pre post rows1 : List Nd) (ta : TableAttrs) (q : Nat) (v : CellAttrs)
    (h1 : ndsSize pre < q) (h2 : q < ndsSize pre + (2 + ndsSize rows1)) :
    applyList (pre ++ .table ta rows1 :: post) 0 (.cellE q v)
      = pre ++ .table ta (applyList rows1 (ndsSize pre + 1) (.cellE q v)) :: post := by
  rw [applyList_append pre _ 0 _ (by simp only [EditO.pos]; omega)]
  rw [applyList]
  rw [if_pos (by simp only [EditO.pos, ndSize]; omega)]
  rw [show applyNode (.table ta rows1) (0 + ndsSize pre) (.cellE q v)
      = .table ta (applyList rows1 (0 + ndsSize pre + 1) (.cellE q v)) from by
    unfold applyNode
    rw [if_neg (by simp only [EditO.pos]; omega)]]
  rw [show (0 : Nat) + ndsSize pre + 1 = ndsSize pre + 1 from by omega]

theorem forEachAux_shape (doc0 : List Nd) (f : CellAttrs → CellAttrs) :
    ∀ (ps : List Nat) (pre post rows1 : List Nd) (ta : TableAttrs),
      (∀ r ∈ rows1, rowOfCells r = true) →
      (∀ p ∈ ps, ndsSize pre < p ∧ p < ndsSize pre + (2 + ndsSize rows1)) →
      ∃ rows2, forEachAux doc0 f ps (pre ++ .table ta rows1 :: post)
          = pre ++ .table ta rows2 :: post
        ∧ (∀ r ∈ rows2, rowOfCells r = true) ∧ ndsSize rows2 = ndsSize rows1 := by
  intro ps
  induction ps with
  | nil =>
    intro pre post rows1 ta hwf _
    exact ⟨rows1, rfl, hwf, rfl⟩
  | cons q ps ih =>
    intro pre post rows1 ta hwf hb
    obtain ⟨hq1, hq2⟩ := hb q (List.mem_cons_self q ps)
    have hbrest : ∀ p ∈ ps, ndsSize pre < p ∧ p < ndsSize pre + (2 + ndsSize rows1) :=
      fun p hp => hb p (List.mem_cons_of_mem q hp)
    rw [forEachAux, List.foldl_cons]
    rcases hm : nodeAtList doc0 0 q with _ | nd
    · exact ih pre post rows1 ta hwf hbrest
    · match nd with
      | .cell k2 a2 i2 =>
        dsimp only
        rw [show applyList (pre ++ .table ta rows1 :: post) 0 (.cellE q (f a2))
            = pre ++ .table ta (applyList rows1 (ndsSize pre + 1) (.cellE q (f a2))) :: post
          from applyEdit_mid pre post rows1 ta q (f a2) hq1 hq2]
        have hwf2 : ∀ r ∈ applyList rows1 (ndsSize pre + 1) (.cellE q (f a2)),
            rowOfCells r = true :=
          allRows_applyList rows1 (ndsSize pre + 1) (.cellE q (f a2)) hwf
        have hsz2 : ndsSize (applyList rows1 (ndsSize pre + 1) (.cellE q (f a2)))
            = ndsSize rows1 := ndsSize_applyList rows1 (ndsSize pre + 1) (.cellE q (f a2))
        obtain ⟨rows2, heq, hwf3, hsz3⟩ := ih pre post _ ta hwf2 (by rw [hsz2]; exact hbrest)
        exact ⟨rows2, heq, hwf3, by rw [hsz3, hsz2]⟩
      | .table ta2 rows => exact ih pre post rows1 ta hwf hbrest
      | .row cs => exact ih pre post rows1 ta hwf hbrest
      | .blk sz => exact ih pre post rows1 ta hwf hbrest

theorem cellAt_mid (pre post rows : List Nd) (ta : TableAttrs) (p : Nat)
    (h1 : ndsSize pre < p) (h2 : p < ndsSize pre + (2 + ndsSize rows)) :
    nodeAtList (pre ++ .table ta rows :: post) 0 p
      = nodeAtList rows (ndsSize pre + 1) p := by
  rw [nodeAtList_append_right pre _ 0 p (by omega)]
  rw [nodeAtList]
  rw [if_pos (by simp only [ndSize]; omega)]
  rw [nodeAtNode, if_neg (by omega)]
  rw [show (0 : Nat) + ndsSize pre + 1 = ndsSize pre + 1 from by omega]

mutual

theorem findCell_nodeAt_list : ∀ (ns : List Nd) (base sel p : Nat) (a : CellAttrs) (i : Nat),
    findCellList ns base sel = some (p, a, i) →
    (base ≤ p ∧ p + (2 + i) ≤ base + ndsSize ns)
      ∧ nodeAtList ns base p = some (.cell .tableCell a i)
  | [], base, sel, p, a, i, h => by simp [findCellList] at h
  | n :: ns, base, sel, p, a, i, h => by
    rw [findCellList] at h
    rcases hm : findCellNode n base sel with _ | r
    · rw [hm] at h
      dsimp only at h
      obtain ⟨⟨hb1, hb2⟩, hat⟩ := findCell_nodeAt_list ns (base + ndSize n) sel p a i h
      refine ⟨⟨by omega, by simp only [ndsSize]; omega⟩, ?_⟩
      rw [nodeAtList, if_neg (by omega)]
      exact hat
    · rw [hm] at h
      dsimp only at h
      obtain ⟨⟨hb1, hb2⟩, hat⟩ := findCell_nodeAt_node n base sel p a i (by rw [hm, h])
      refine ⟨⟨hb1, by simp only [ndsSize]; omega⟩, ?_⟩
      rw [nodeAtList, if_pos (by omega)]
      exact hat

theorem findCell_nodeAt_node : ∀ (n : Nd) (base sel p : Nat) (a : CellAttrs) (i : Nat),
    findCellNode n base sel = some (p, a, i) →
    (base ≤ p ∧ p + (2 + i) ≤ base + ndSize n)
      ∧ nodeAtNode n base p = some (.cell .tableCell a i)
  | .cell k a0 i0, base, sel, p, a, i, h => by
    rw [findCellNode] at h
    by_cases hc : k = .tableCell ∧ base < sel ∧ sel < base + (2 + i0)
    · rw [if_pos hc] at h
      have h1 := Option.some.inj h
      injection h1 with hp hrest
      injection hrest with ha hi
      refine ⟨⟨by omega, by simp only [ndSize]; omega⟩, ?_⟩
      rw [← hp, nodeAtNode, if_pos rfl, hc.1, ha, hi]
    · rw [if_neg hc] at h
      simp at h
  | .table ta rows, base, sel, p, a, i, h => by
    rw [findCellNode] at h
    obtain ⟨⟨hb1, hb2⟩, hat⟩ := findCell_nodeAt_list rows (base + 1) sel p a i h
    refine ⟨⟨by omega, by simp only [ndSize]; omega⟩, ?_⟩
    rw [nodeAtNode, if_neg (by omega)]
    exact hat
  | .row cells, base, sel, p, a, i, h => by
    rw [findCellNode] at h
    obtain ⟨⟨hb1, hb2⟩, hat⟩ := findCell_nodeAt_list cells (base + 1) sel p a i h
    refine ⟨⟨by omega, by simp only [ndSize]; omega⟩, ?_⟩
    rw [nodeAtNode, if_neg (by omega)]
    exact hat
  | .blk sz, base, sel, p, a, i, h => by
    rw [findCellNode] at h
    simp at h

end

theorem isCellNd_updCellN (f : CellAttrs → CellAttrs) (n : Nd) :
    isCellNd (updCellN f n) = isCellNd n := by
  match n with
  | .cell k a i => by_cases h : a.highlight <;> simp [updCellN, h, isCellNd]
  | .row cs => rfl
  | .table ta rows => rfl
  | .blk sz => rfl

theorem rowOfCells_updRowN (f : CellAttrs → CellAttrs) (r : Nd) :
    rowOfCells (updRowN f r) = rowOfCells r := by
  match r with
  | .row cs =>
    simp only [updRowN, rowOfCells]
    induction cs with
    | nil => rfl
    | cons c cs ih => simp [List.all_cons, isCellNd_updCellN, ih]
  | .cell k a i => rfl
  | .table ta rows => rfl
  | .blk sz => rfl

theorem updCellN_comp (f g : CellAttrs → CellAttrs)
    (hf : ∀ a, (f a).highlight = a.highlight) (n : Nd) :
    updCellN g (updCellN f n) = updCellN (fun a => g (f a)) n := by
  match n with
  | .cell k a i =>
    by_cases h : a.highlight
    · simp [updCellN, h]
    · simp only [updCellN, if_neg h]
      rw [if_neg (by rw [hf a]; exact h)]
  | .row cs => rfl
  | .table ta rows => rfl
  | .blk sz => rfl

theorem updRowN_comp (f g : CellAttrs → CellAttrs)
    (hf : ∀ a, (f a).highlight = a.highlight) (r : Nd) :
    updRowN g (updRowN f r) = updRowN (fun a => g (f a)) r := by
  match r with
  | .row cs =>
    simp only [updRowN, List.map_map]
    congr 1
    apply List.map_congr_left
    intro c _
    exact updCellN_comp f g hf c
  | .cell k a i => rfl
  | .table ta rows => rfl
  | .blk sz => rfl

/-- A non-highlighted cell node (used to state the absence of highlighted
cells in a table). -/
def plainCell : Nd → Bool
  | .cell _ a _ => !a.highlight
  | _ => false

/-- Set the background of a cell node (the shape of the per-row rewrite
that C7 describes). -/
def setBgN (v : Option String) : Nd → Nd
  | .cell k a i => .cell k { a with background := v } i
  | .row cs => .row cs
  | .table ta rows => .table ta rows
  | .blk sz => .blk sz

/-- Decidable statement that the node at position p, when it is a cell, is
either listed in S or not highlighted (S is the complete highlight set). -/
def hlOutside (doc : List Nd) (S : List Nat) (p : Nat) : Bool :=
  match nodeAtList doc 0 p with
  | some (.cell _ a _) => decide (p ∈ S) || !a.highlight
  | _ => true

/-- The row index an addColumn edit was produced at. -/
def ColEdit.rowOf : ColEdit → Nat
  | .extendSpan r _ _ => r
  | .insertCell r _ _ => r

/-- Helper: a scoped default pass run after a forEachCell rewrite that set
highlight = true on the cell set S leaves the S cells exactly as the
rewrite left them and writes the default on every other cell of the table,
provided no highlighted cell exists outside S. -/
theorem scoped_after_cellset
    (updT : TableAttrs → TableAttrs) (updC : CellAttrs → CellAttrs)
    (fH : CellAttrs → CellAttrs) (hfH : ∀ a, (fH a).highlight = true)
    (pre post rows : List Nd) (ta : TableAttrs) (sel : Nat) (S : List Nat)
    (hpre : ∀ n ∈ pre, topLevelWF n = true) (hpost : ∀ n ∈ post, topLevelWF n = true)
    (hrows : ∀ r ∈ rows, rowOfCells r = true)
    (h1 : ndsSize pre < sel) (h2 : sel < ndsSize pre + (2 + ndsSize rows))
    (hS : ∀ p ∈ S, ndsSize pre < p ∧ p < ndsSize pre + (2 + ndsSize rows)) :
    ∃ d2, scopedDefault updT updC
        (forEachCellEdit (pre ++ .table ta rows :: post) S fH) sel = some (d2, true)
      ∧ (∀ p ∈ S, ∀ k (a : CellAttrs) i,
          nodeAtList (pre ++ .table ta rows :: post) 0 p = some (.cell k a i) →
          nodeAtList (forEachCellEdit (pre ++ .table ta rows :: post) S fH) 0 p
            = some (.cell k (fH a) i)
          ∧ nodeAtList d2 0 p = some (.cell k (fH a) i))
      ∧ (∀ p k (a : CellAttrs) i, p ∉ S → ndsSize pre < p →
          p < ndsSize pre + (2 + ndsSize rows) →
          nodeAtList (pre ++ .table ta rows :: post) 0 p = some (.cell k a i) →
          a.highlight = false →
          nodeAtList d2 0 p = some (.cell k (updC a) i)) := by
  obtain ⟨rows1, heq, hwf1, hsz1⟩ :=
    forEachAux_shape (pre ++ .table ta rows :: post) fH S pre post rows ta hrows hS
  have hd1 : forEachCellEdit (pre ++ .table ta rows :: post) S fH
      = pre ++ .table ta rows1 :: post := by
    rw [forEachCellEdit_eq_aux]; exact heq
  have hchar := scopedDefault_char updT updC pre post rows1 ta sel hpre hpost hwf1 h1
    (by rw [show ndSize (.table ta rows1) = 2 + ndsSize rows1 from rfl, hsz1]; omega)
  refine ⟨pre ++ .table (updT ta) (rows1.map (updRowN updC)) :: post,
    by rw [hd1]; exact hchar, ?_, ?_⟩
  · intro p hp k a i hat
    obtain ⟨hp1, hp2⟩ := hS p hp
    have hd1p : nodeAtList (forEachCellEdit (pre ++ .table ta rows :: post) S fH) 0 p
        = some (.cell k (fH a) i) := by
      rw [forEachCellEdit_eq_aux]
      exact forEachAux_mem S _ _ fH p k a a i hat hat hp
    refine ⟨hd1p, ?_⟩
    have hrows1p : nodeAtList rows1 (ndsSize pre + 1) p = some (.cell k (fH a) i) := by
      rw [← cellAt_mid pre post rows1 ta p hp1 (by rw [hsz1]; omega)]
      rw [← hd1]
      exact hd1p
    have hmapped := cellAt_map_updRowN rows1 (ndsSize pre + 1) p updC k (fH a) i hwf1 hrows1p
    rw [show updCellN updC (.cell k (fH a) i) = .cell k (fH a) i from by
      simp [updCellN, hfH a]] at hmapped
    rw [cellAt_mid pre post (rows1.map (updRowN updC)) (updT ta) p hp1
      (by rw [ndsSize_map_updRowN, hsz1]; omega)]
    exact hmapped
  · intro p k a i hpS hp1 hp2 hat hhl
    have hd1p : nodeAtList (forEachCellEdit (pre ++ .table ta rows :: post) S fH) 0 p
        = some (.cell k a i) := by
      rw [forEachCellEdit_eq_aux]
      exact forEachAux_notmem S _ _ fH p k a i hat hpS
    have hrows1p : nodeAtList rows1 (ndsSize pre + 1) p = some (.cell k a i) := by
      rw [← cellAt_mid pre post rows1 ta p hp1 (by rw [hsz1]; omega)]
      rw [← hd1]
      exact hd1p
    have hmapped := cellAt_map_updRowN rows1 (ndsSize pre + 1) p updC k a i hwf1 hrows1p
    rw [show updCellN updC (.cell k a i) = .cell k (updC a) i from by
      simp [updCellN, hhl]] at hmapped
    rw [cellAt_mid pre post (rows1.map (updRowN updC)) (updT ta) p hp1
      (by rw [ndsSize_map_updRowN, hsz1]; omega)]
    exact hmapped

/-- Helper: the alternation pass run after a forEachCell rewrite that set
highlight = true on S leaves the S cells exactly as the rewrite left them. -/
theorem alternate_after_cellset
    (fH : CellAttrs → CellAttrs) (hfH : ∀ a, (fH a).highlight = true)
    (pre post rows : List Nd) (ta : TableAttrs) (sel : Nat) (S : List Nat)
    (hpre : ∀ n ∈ pre, topLevelWF n = true) (hpost : ∀ n ∈ post, topLevelWF n = true)
    (hrows : ∀ r ∈ rows, rowOfCells r = true)
    (h1 : ndsSize pre < sel) (h2 : sel < ndsSize pre + (2 + ndsSize rows))
    (hS : ∀ p ∈ S, ndsSize pre < p ∧ p < ndsSize pre + (2 + ndsSize rows)) :
    ∃ d3, alternateColor (forEachCellEdit (pre ++ .table ta rows :: post) S fH) sel
        = some (d3, true)
      ∧ (∀ p ∈ S, ∀ k (a : CellAttrs) i,
          nodeAtList (pre ++ .table ta rows :: post) 0 p = some (.cell k a i) →
          nodeAtList d3 0 p = some (.cell k (fH a) i)) := by
  obtain ⟨rows1, heq, hwf1, hsz1⟩ :=
    forEachAux_shape (pre ++ .table ta rows :: post) fH S pre post rows ta hrows hS
  have hd1 : forEachCellEdit (pre ++ .table ta rows :: post) S fH
      = pre ++ .table ta rows1 :: post := by
    rw [forEachCellEdit_eq_aux]; exact heq
  have hchar := alternateColor_char pre post rows1 ta sel hpre hpost hwf1 h1
    (by rw [show ndSize (.table ta rows1) = 2 + ndsSize rows1 from rfl, hsz1]; omega)
  refine ⟨pre ++ .table (altTa ta) (altRows rows1 0) :: post,
    by rw [hd1]; exact hchar, ?_⟩
  intro p hp k a i hat
  obtain ⟨hp1, hp2⟩ := hS p hp
  have hd1p : nodeAtList (forEachCellEdit (pre ++ .table ta rows :: post) S fH) 0 p
      = some (.cell k (fH a) i) := by
    rw [forEachCellEdit_eq_aux]
    exact forEachAux_mem S _ _ fH p k a a i hat hat hp
  have hrows1p : nodeAtList rows1 (ndsSize pre + 1) p = some (.cell k (fH a) i) := by
    rw [← cellAt_mid pre post rows1 ta p hp1 (by rw [hsz1]; omega)]
    rw [← hd1]
    exact hd1p
  obtain ⟨c2, hmapped⟩ := cellAt_altRows rows1 (ndsSize pre + 1) p 0 k (fH a) i hwf1 hrows1p
  rw [show updCellN (altBg c2) (.cell k (fH a) i) = .cell k (fH a) i from by
    simp [updCellN, hfH a]] at hmapped
  rw [cellAt_mid pre post (altRows rows1 0) (altTa ta) p hp1
    (by rw [ndsSize_altRows, hsz1]; omega)]
  exact hmapped

theorem findParentTable_mid (pre post rows : List Nd) (ta : TableAttrs) (sel : Nat)
    (h1 : ndsSize pre < sel) (h2 : sel < ndsSize pre + ndSize (.table ta rows)) :
    findParentTable (pre ++ .table ta rows :: post) 0 sel = some (ndsSize pre, ta, rows) := by
  rw [findParentTable_skip pre _ 0 sel (by omega)]
  rw [findParentTable]
  rw [if_pos ⟨by omega, by
    rw [show ndSize (.table ta rows) = 2 + ndsSize rows from rfl] at h2 ⊢
    omega⟩]
  simp

/-! ### The claims -/

/-- C2: the spec requires each setTableDefault command to return false,
with no mutation, exactly when the selection has no enclosing table.  The
code instead applies a TypeScript non-null assertion to the undefined
result of findParentNodeOfType, so on a document whose selection sits in a
plain paragraph with no table anywhere, every one of the three commands
dereferences undefined and throws a TypeError (the embedded functions
return the exception marker `none`); a false return is unreachable. -/
theorem C2_no_table_throws_instead_of_false :
    defaultBorder [.blk 2] 1 (some "2px solid") = none
    ∧ defaultBorderColor [.blk 2] 1 (some "red") = none
    ∧ defaultBackgroundColor [.blk 2] 1 (some "#ffffff") = none :=
  ⟨rfl, rfl, rfl⟩

/-- C4: a setTableDefault call with the selection inside one table rewrites
that table and its cells only: the surrounding blocks before and after it —
in particular every sibling table — reappear untouched in the result, for
each of the three default-setting commands. -/
theorem C4_sibling_scope_isolation
    (pre post rows : List Nd) (ta : TableAttrs) (sel : Nat) (b bc g : Option String)
    (hpre : ∀ n ∈ pre, topLevelWF n = true) (hpost : ∀ n ∈ post, topLevelWF n = true)
    (hrows : ∀ r ∈ rows, rowOfCells r = true)
    (h1 : ndsSize pre < sel) (h2 : sel < ndsSize pre + ndSize (.table ta rows)) :
    defaultBorder (pre ++ .table ta rows :: post) sel b
      = some (pre ++ .table { ta with border := b }
          (rows.map (updRowN (fun a => { a with border := b }))) :: post, true)
    ∧ defaultBorderColor (pre ++ .table ta rows :: post) sel bc
      = some (pre ++ .table { ta with borderColor := bc }
          (rows.map (updRowN (fun a => { a with borderColor := bc }))) :: post, true)
    ∧ defaultBackgroundColor (pre ++ .table ta rows :: post) sel g
      = some (pre ++ .table { ta with background := g }
          (rows.map (updRowN (fun a => { a with background := g }))) :: post, true) :=
  ⟨scopedDefault_char _ _ pre post rows ta sel hpre hpost hrows h1 h2,
   scopedDefault_char _ _ pre post rows ta sel hpre hpost hrows h1 h2,
   scopedDefault_char _ _ pre post rows ta sel hpre hpost hrows h1 h2⟩

/-- C8: fixTable returns false exactly when fixTables computes no
corrective transaction, and then leaves the document untouched; on an
already-valid document two successive calls both return false and the
document is unchanged bit for bit. -/
theorem C8_fixTables_idempotent (lg : Option (List Nd)) (doc : List Nd) :
    ((fixTablesCommand lg doc).1 = false ↔ fixTables doc lg = none)
    ∧ (fixTables doc lg = none → (fixTablesCommand lg doc).2 = doc)
    ∧ (docValid doc = true →
        fixTablesCommand lg doc = (false, doc)
        ∧ fixTablesCommand lg ((fixTablesCommand lg doc).2) = (false, doc)) := by
  have hnone : docValid doc = true → fixTables doc lg = none := by
    intro h
    unfold fixTables
    rw [if_pos h]
  refine ⟨⟨?_, ?_⟩, ?_, ?_⟩
  · intro h
    rcases hm : fixTables doc lg with _ | d
    · rfl
    · rw [fixTablesCommand, hm] at h
      simp at h
  · intro h
    rw [fixTablesCommand, h]
  · intro h
    rw [fixTablesCommand, h]
  · intro h
    have h2 := hnone h
    have hfst : fixTablesCommand lg doc = (false, doc) := by
      rw [fixTablesCommand, h2]
    refine ⟨hfst, ?_⟩
    rw [hfst]
    exact hfst

/-- C10: toggleTableCellMerge returns false whenever merging succeeds (the
merge result is still dispatched), and only when merging is not applicable
does it return what splitting returns. -/
theorem C10_toggle_merge_inverted (mc sc : List Nd → Option (List Nd))
    (doc d : List Nd) :
    (mc doc = some d → toggleMergeCellCommand mc sc doc = (false, some d))
    ∧ (mc doc = none →
        toggleMergeCellCommand mc sc doc
          = match sc doc with
            | some d2 => (true, some d2)
            | none => (false, none)) := by
  constructor
  · intro h
    rw [toggleMergeCellCommand, h]
  · intro h
    rw [toggleMergeCellCommand, h]

theorem addColumnLoop_rowOf_lb (m : TMap) (nodeAt : Nat → Option PMCell)
    (positionAt : Nat → Nat → Nat) (col : Nat) :
    ∀ (fuel row : Nat) (es : List ColEdit) (e : ColEdit),
      addColumnLoop m nodeAt positionAt col row fuel = some es → e ∈ es →
      row ≤ e.rowOf := by
  intro fuel
  induction fuel with
  | zero =>
    intro row es e h he
    rw [addColumnLoop] at h
    cases Option.some.inj h
    simp at he
  | succ fuel ih =>
    intro row es e h he
    rw [addColumnLoop] at h
    by_cases hr : row < m.height
    · rw [if_pos hr] at h
      dsimp only at h
      by_cases hg : 0 < col ∧ col < m.width ∧
          mapGet m.map ((row * m.width + col : Nat) - 1 : Int)
            = mapGet m.map ((row * m.width + col : Nat) : Int)
      · rw [if_pos hg] at h
        rcases hm : mapGet m.map ((row * m.width + col : Nat) : Int) with _ | p
        · rw [hm] at h
          simp at h
        · rw [hm] at h
          dsimp only at h
          rcases hn : nodeAt p with _ | cell
          · rw [hn] at h
            simp at h
          · rw [hn] at h
            dsimp only at h
            rcases hrec : addColumnLoop m nodeAt positionAt col
                (row + cell.attrs.rowspan) fuel with _ | es2
            · rw [hrec] at h
              simp at h
            · rw [hrec] at h
              simp only [Option.map_some'] at h
              cases Option.some.inj h
              rcases List.mem_cons.mp he with h2 | h2
              · rw [h2]
                exact le_refl row
              · have := ih (row + cell.attrs.rowspan) es2 e hrec h2
                omega
      · rw [if_neg hg] at h
        rcases hm2 : mapGet m.map (((row * m.width + col : Nat) : Int)
            + (if col + 1 < m.width then (0 : Int) else -1)) with _ | t
        · rw [hm2] at h
          simp at h
        · rw [hm2] at h
          dsimp only at h
          rcases hn : nodeAt t with _ | refCell
          · rw [hn] at h
            simp at h
          · rw [hn] at h
            dsimp only at h
            rcases hrec : addColumnLoop m nodeAt positionAt col (row + 1) fuel
                with _ | es2
            · rw [hrec] at h
              simp at h
            · rw [hrec] at h
              simp only [Option.map_some'] at h
              cases Option.some.inj h
              rcases List.mem_cons.mp he with h2 | h2
              · rw [h2]
                exact le_refl row
              · have := ih (row + 1) es2 e hrec h2
                omega
    · rw [if_neg hr] at h
      cases Option.some.inj h
      simp at he

/-- C5: at each row the addColumn loop visits, if the target column falls
inside a colspan that started before it — detected by the two adjacent
grid slots across the boundary mapping to the same cell position — the
loop rewrites that cell with its colspan increased from w to w + 1 and
creates no new cell at that row (every later edit belongs to a row at or
beyond the skipped rowspan); otherwise it inserts exactly one newly created
empty cell whose node type is that of the adjacent reference cell: the
cell one column forward when the insertion point is before the last
column (col + 1 < width), otherwise one column backward. -/
theorem C5_insert_column_behavior
    (m : TMap) (nodeAt : Nat → Option PMCell) (positionAt : Nat → Nat → Nat)
    (col row fuel : Nat) (hrow : row < m.height) :
    (∀ (p : Nat) (cell : PMCell),
      (0 < col ∧ col < m.width ∧
        mapGet m.map (((row * m.width + col : Nat) : Int) - 1)
          = mapGet m.map ((row * m.width + col : Nat) : Int)) →
      mapGet m.map ((row * m.width + col : Nat) : Int) = some p →
      nodeAt p = some cell →
      addColumnLoop m nodeAt positionAt col row (fuel + 1)
        = (addColumnLoop m nodeAt positionAt col (row + cell.attrs.rowspan) fuel).map
            (fun es => .extendSpan row p (addColSpan cell.attrs) :: es)
      ∧ (addColSpan cell.attrs).colspan = cell.attrs.colspan + 1
      ∧ (∀ es e, addColumnLoop m nodeAt positionAt col (row + cell.attrs.rowspan) fuel
            = some es → e ∈ es → row + cell.attrs.rowspan ≤ e.rowOf))
    ∧ (¬(0 < col ∧ col < m.width ∧
        mapGet m.map (((row * m.width + col : Nat) : Int) - 1)
          = mapGet m.map ((row * m.width + col : Nat) : Int)) →
      ∀ (t : Nat) (refCell : PMCell),
        mapGet m.map (((row * m.width + col : Nat) : Int)
          + (if col + 1 < m.width then (0 : Int) else -1)) = some t →
        nodeAt t = some refCell →
        addColumnLoop m nodeAt positionAt col row (fuel + 1)
          = (addColumnLoop m nodeAt positionAt col (row + 1) fuel).map
              (fun es => .insertCell row (positionAt row col) refCell.kind :: es)) := by
  constructor
  · intro p cell hg hm hn
    refine ⟨?_, rfl, ?_⟩
    · rw [addColumnLoop, if_pos hrow]
      dsimp only
      rw [if_pos hg, hm]
      dsimp only
      rw [hn]
    · intro es e hrec he
      exact addColumnLoop_rowOf_lb m nodeAt positionAt col fuel
        (row + cell.attrs.rowspan) es e hrec he
  · intro hg t refCell hm hn
    rw [addColumnLoop, if_pos hrow]
    dsimp only
    rw [if_neg hg, hm]
    dsimp only
    rw [hn]

/-- C7: on a 4-row table with no highlighted cells, one applyAlternateColor
call gives every cell of rows 1 and 3 (1-indexed) the banding background
"#E6E6E6" and every cell of rows 2 and 4 the no-color sentinel — the
literal string "null" — and the two values differ. -/
theorem C7_alternation_parity
    (ta : TableAttrs) (cs1 cs2 cs3 cs4 : List Nd) (sel : Nat)
    (h1 : 0 < sel)
    (h2 : sel < ndSize (.table ta [.row cs1, .row cs2, .row cs3, .row cs4]))
    (hc1 : ∀ c ∈ cs1, plainCell c = true) (hc2 : ∀ c ∈ cs2, plainCell c = true)
    (hc3 : ∀ c ∈ cs3, plainCell c = true) (hc4 : ∀ c ∈ cs4, plainCell c = true) :
    alternateColor [.table ta [.row cs1, .row cs2, .row cs3, .row cs4]] sel
      = some ([.table (altTa ta)
          [.row (cs1.map (setBgN (some "#E6E6E6"))),
           .row (cs2.map (setBgN (some "null"))),
           .row (cs3.map (setBgN (some "#E6E6E6"))),
           .row (cs4.map (setBgN (some "null")))]], true)
    ∧ (some "#E6E6E6" : Option String) ≠ some "null" := by
  have hplain_cells : ∀ (cs : List Nd), (∀ c ∈ cs, plainCell c = true) →
      ∀ c ∈ cs, isCellNd c = true := by
    intro cs hcs c hc
    have := hcs c hc
    match c, this with
    | .cell k a i, _ => rfl
  have hmapeq : ∀ (cs : List Nd) (j : Nat) (v : Option String),
      (∀ c ∈ cs, plainCell c = true) →
      (j % 2 ≠ 0 → v = some "#E6E6E6") → (j % 2 = 0 → v = some "null") →
      cs.map (updCellN (altBg j)) = cs.map (setBgN v) := by
    intro cs j v hcs hv1 hv2
    apply List.map_congr_left
    intro c hc
    have hp := hcs c hc
    match c, hp with
    | .cell k a i, hp =>
      have hhl : a.highlight = false := by
        simp only [plainCell, Bool.not_eq_true'] at hp
        exact hp
      rw [show updCellN (altBg j) (.cell k a i) = .cell k (altBg j a) i from by
        simp [updCellN, hhl]]
      rw [show setBgN v (.cell k a i) = .cell k { a with background := v } i from rfl]
      by_cases hj : j % 2 = 0
      · rw [show altBg j a = { a with background := some "null" } from by
          simp [altBg, hj]]
        rw [hv2 hj]
      · rw [show altBg j a = { a with background := some "#E6E6E6" } from by
          simp [altBg, hj]]
        rw [hv1 hj]
  have hrows : ∀ r ∈ [Nd.row cs1, Nd.row cs2, Nd.row cs3, Nd.row cs4],
      rowOfCells r = true := by
    intro r hr
    simp only [List.mem_cons, List.not_mem_nil, or_false] at hr
    rcases hr with h | h | h | h <;>
      (rw [h]; simp only [rowOfCells, List.all_eq_true])
    · exact hplain_cells cs1 hc1
    · exact hplain_cells cs2 hc2
    · exact hplain_cells cs3 hc3
    · exact hplain_cells cs4 hc4
  have hchar := alternateColor_char [] []
    [Nd.row cs1, Nd.row cs2, Nd.row cs3, Nd.row cs4] ta sel
    (by intro n hn; simp at hn) (by intro n hn; simp at hn) hrows
    (by simpa [ndsSize] using h1) (by simpa [ndsSize] using h2)
  refine ⟨?_, by simp⟩
  rw [show ([] : List Nd) ++ Nd.table ta [Nd.row cs1, Nd.row cs2, Nd.row cs3, Nd.row cs4]
      :: ([] : List Nd)
      = [Nd.table ta [Nd.row cs1, Nd.row cs2, Nd.row cs3, Nd.row cs4]] from rfl] at hchar
  rw [hchar]
  rw [show altRows [Nd.row cs1, Nd.row cs2, Nd.row cs3, Nd.row cs4] 0
      = [.row (cs1.map (updCellN (altBg 1))), .row (cs2.map (updCellN (altBg 2))),
         .row (cs3.map (updCellN (altBg 3))), .row (cs4.map (updCellN (altBg 4)))] from by
    rw [altRows, altRows, altRows, altRows, altRows]]
  rw [hmapeq cs1 1 (some "#E6E6E6") hc1 (fun _ => rfl) (by intro h; simp at h)]
  rw [hmapeq cs2 2 (some "null") hc2 (by intro h; simp at h) (fun _ => rfl)]
  rw [hmapeq cs3 3 (some "#E6E6E6") hc3 (fun _ => rfl) (by intro h; simp at h)]
  rw [hmapeq cs4 4 (some "null") hc4 (by intro h; simp at h) (fun _ => rfl)]
  rfl

/-- C6: the propagation phase that closes every structural edit (the three
calls at part_002 lines 70-76 in addColumn and lines 169-175 in addRow,
shared by the before and after command variants) re-applies the enclosing
table's current border, background and borderColor across the post-edit
table: every non-highlighted cell — in particular every newly inserted
cell, whose highlight attribute is the schema default false — ends up
carrying exactly the three table-wide defaults, and highlighted cells stay
untouched. -/
theorem C6_structural_edit_finish
    (pre post rows : List Nd) (ta : TableAttrs) (sel : Nat)
    (hpre : ∀ n ∈ pre, topLevelWF n = true) (hpost : ∀ n ∈ post, topLevelWF n = true)
    (hrows : ∀ r ∈ rows, rowOfCells r = true)
    (h1 : ndsSize pre < sel) (h2 : sel < ndsSize pre + ndSize (.table ta rows)) :
    structuralFinish (pre ++ .table ta rows :: post) sel
      = some (pre ++ .table ta (rows.map (updRowN (fun a =>
          { a with border := ta.border, borderColor := ta.borderColor,
                   background := ta.background }))) :: post)
    ∧ (∀ k (a : CellAttrs) i, a.highlight = false →
        updCellN (fun a =>
            { a with border := ta.border, borderColor := ta.borderColor,
                     background := ta.background }) (.cell k a i)
          = .cell k
              { a with border := ta.border, borderColor := ta.borderColor,
                       background := ta.background } i)
    ∧ (∀ k (a : CellAttrs) i, a.highlight = true →
        updCellN (fun a =>
            { a with border := ta.border, borderColor := ta.borderColor,
                     background := ta.background }) (.cell k a i) = .cell k a i) := by
  refine ⟨?_, ?_, ?_⟩
  · unfold structuralFinish
    rw [findParentTable_mid pre post rows ta sel h1 h2]
    dsimp only
    have hA : ndSize (.table ta rows) = 2 + ndsSize rows := rfl
    have e1 : defaultBorder (pre ++ .table ta rows :: post) sel ta.border
        = some (pre ++ .table ta
            (rows.map (updRowN (fun a => { a with border := ta.border }))) :: post, true) :=
      scopedDefault_char _ _ pre post rows ta sel hpre hpost hrows h1 h2
    rw [e1]
    dsimp only
    have hwf1 : ∀ r ∈ rows.map (updRowN (fun a => { a with border := ta.border })),
        rowOfCells r = true := by
      intro r hr
      obtain ⟨r0, hr0, heq⟩ := List.mem_map.mp hr
      rw [← heq, rowOfCells_updRowN]
      exact hrows r0 hr0
    have e2 : defaultBackgroundColor
        (pre ++ .table ta
          (rows.map (updRowN (fun a => { a with border := ta.border }))) :: post)
        sel ta.background
        = some (pre ++ .table ta
            ((rows.map (updRowN (fun a => { a with border := ta.border }))).map
              (updRowN (fun a => { a with background := ta.background }))) :: post, true) :=
      scopedDefault_char _ _ pre post _ ta sel hpre hpost hwf1 h1
        (by rw [show ndSize (.table ta
              (rows.map (updRowN (fun a => { a with border := ta.border }))))
            = 2 + ndsSize (rows.map (updRowN (fun a => { a with border := ta.border })))
            from rfl, ndsSize_map_updRowN]
            rw [hA] at h2
            omega)
    rw [e2]
    dsimp only
    have hwf2 : ∀ r ∈ (rows.map (updRowN (fun a => { a with border := ta.border }))).map
        (updRowN (fun a => { a with background := ta.background })),
        rowOfCells r = true := by
      intro r hr
      obtain ⟨r0, hr0, heq⟩ := List.mem_map.mp hr
      rw [← heq, rowOfCells_updRowN]
      exact hwf1 r0 hr0
    have e3 : defaultBorderColor
        (pre ++ .table ta
          ((rows.map (updRowN (fun a => { a with border := ta.border }))).map
            (updRowN (fun a => { a with background := ta.background }))) :: post)
        sel ta.borderColor
        = some (pre ++ .table ta
            (((rows.map (updRowN (fun a => { a with border := ta.border }))).map
              (updRowN (fun a => { a with background := ta.background }))).map
                (updRowN (fun a => { a with borderColor := ta.borderColor }))) :: post, true) :=
      scopedDefault_char _ _ pre post _ ta sel hpre hpost hwf2 h1
        (by rw [show ndSize (.table ta
              ((rows.map (updRowN (fun a => { a with border := ta.border }))).map
                (updRowN (fun a => { a with background := ta.background }))))
            = 2 + ndsSize ((rows.map (updRowN (fun a => { a with border := ta.border }))).map
                (updRowN (fun a => { a with background := ta.background })))
            from rfl, ndsSize_map_updRowN, ndsSize_map_updRowN]
            rw [hA] at h2
            omega)
    rw [e3]
    dsimp only
    have hfinal : ((rows.map (updRowN (fun a => { a with border := ta.border }))).map
        (updRowN (fun a => { a with background := ta.background }))).map
          (updRowN (fun a => { a with borderColor := ta.borderColor }))
        = rows.map (updRowN (fun a =>
            { a with border := ta.border, borderColor := ta.borderColor,
                     background := ta.background })) := by
      rw [List.map_map, List.map_map]
      apply List.map_congr_left
      intro r _
      show updRowN (fun a => { a with borderColor := ta.borderColor })
          (updRowN (fun a => { a with background := ta.background })
            (updRowN (fun a => { a with border := ta.border }) r))
        = updRowN (fun a =>
            { a with border := ta.border, borderColor := ta.borderColor,
                     background := ta.background }) r
      rw [updRowN_comp (fun a => { a with border := ta.border })
        (fun a => { a with background := ta.background }) (fun a => rfl) r]
      rw [updRowN_comp (fun a => { a with border := ta.border, background := ta.background })
        (fun a => { a with borderColor := ta.borderColor }) (fun a => rfl) r]
    rw [hfinal]
  · intro k a i h
    simp [updCellN, h]
  · intro k a i h
    simp [updCellN, h]

/-- C3 counterexample: on a table whose single tableCell carries
border "4px dashed", borderColor "red" and highlight = true, clearHighlight
through the single-enclosing-cell branch (a non-cell selection anchored
inside the cell) returns true but leaves border at "4px dashed" — not
null, as the claim demands. -/
theorem C3_counterexample :
    (removeHighlightSelection
        [.table ⟨none, none, none, "false"⟩
          [.row [.cell .tableCell ⟨some "4px dashed", some "red", none, true, 1, 1⟩ 2]]]
        (.textSel 3)).2 = true
    ∧ nodeAtList (removeHighlightSelection
        [.table ⟨none, none, none, "false"⟩
          [.row [.cell .tableCell ⟨some "4px dashed", some "red", none, true, 1, 1⟩ 2]]]
        (.textSel 3)).1 0 2
      = some (.cell .tableCell ⟨some "4px dashed", some "red", none, false, 1, 1⟩ 2)
    ∧ (some "4px dashed" : Option String) ≠ none :=
  ⟨rfl, rfl, by simp⟩

/-- C3 (amended): in the cell-range case clearHighlight sets border to
null, borderColor to null and highlight to false on every cell of the
range and returns true; in the single-enclosing-cell case it sets only
highlight to false on the found tableCell, leaving its border and
borderColor values unchanged, and returns true. -/
theorem C3_clearHighlight_amended (doc : List Nd) (S : List Nat) (anchor : Nat) :
    ((removeHighlightSelection doc (.cellsSel S)).2 = true
      ∧ (∀ p ∈ S, ∀ k (a : CellAttrs) i, nodeAtList doc 0 p = some (.cell k a i) →
          nodeAtList (removeHighlightSelection doc (.cellsSel S)).1 0 p
            = some (.cell k
                { a with border := none, borderColor := none,
                         highlight := false } i)))
    ∧ (∀ p (a : CellAttrs) i, findCellList doc 0 anchor = some (p, a, i) →
        (removeHighlightSelection doc (.textSel anchor)).2 = true
        ∧ nodeAtList (removeHighlightSelection doc (.textSel anchor)).1 0 p
            = some (.cell .tableCell { a with highlight := false } i)) := by
  refine ⟨⟨rfl, ?_⟩, ?_⟩
  · intro p hp k a i hat
    show nodeAtList (forEachCellEdit doc S
        (fun a => { a with border := none, borderColor := none, highlight := false })) 0 p
      = some (.cell k
          { a with border := none, borderColor := none, highlight := false } i)
    rw [forEachCellEdit_eq_aux]
    exact forEachAux_mem S doc doc _ p k a a i hat hat hp
  · intro p a i hfind
    have hat := (findCell_nodeAt_list doc 0 anchor p a i hfind).2
    constructor
    · show (removeHighlightSelection doc (.textSel anchor)).2 = true
      rw [removeHighlightSelection, hfind]
    · rw [show (removeHighlightSelection doc (.textSel anchor)).1
          = applyList doc 0 (.cellE p { a with highlight := false }) from by
        rw [removeHighlightSelection, hfind]]
      have := cellAt_applyList doc 0 p p { a with highlight := false } .tableCell a i hat
      rw [if_pos rfl] at this
      exact this

/-- C1: after highlightSelection (setHighlight) on a cell set S — S being
the complete highlight set: every cell of the table outside S is
non-highlighted, which hlOutside states decidably — each of the three
setTableDefault commands returns true, leaves every attribute of every
cell of S exactly as the highlight rewrite left it, and sets precisely the
named attribute on every cell of the same table outside S. -/
theorem C1_highlight_exemption
    (pre post rows : List Nd) (ta : TableAttrs) (sel : Nat) (S : List Nat)
    (hb hbc v : Option String)
    (hpre : ∀ n ∈ pre, topLevelWF n = true) (hpost : ∀ n ∈ post, topLevelWF n = true)
    (hrows : ∀ r ∈ rows, rowOfCells r = true)
    (h1 : ndsSize pre < sel) (h2 : sel < ndsSize pre + (2 + ndsSize rows))
    (hS : ∀ p ∈ S, ndsSize pre < p ∧ p < ndsSize pre + (2 + ndsSize rows))
    (hcomp : ∀ p, p < ndsSize pre + (2 + ndsSize rows) →
        hlOutside (pre ++ .table ta rows :: post) S p = true) :
    (highlightSelection (pre ++ .table ta rows :: post) (.cellsSel S) hb hbc).2 = true
    ∧ (∃ d2, defaultBorder
          (highlightSelection (pre ++ .table ta rows :: post) (.cellsSel S) hb hbc).1
          sel v = some (d2, true)
        ∧ (∀ p ∈ S, ∀ k (a : CellAttrs) i,
            nodeAtList (pre ++ .table ta rows :: post) 0 p = some (.cell k a i) →
            nodeAtList
              (highlightSelection (pre ++ .table ta rows :: post) (.cellsSel S) hb hbc).1
              0 p
              = some (.cell k
                  { a with border := hb, borderColor := hbc, highlight := true } i)
            ∧ nodeAtList d2 0 p
              = some (.cell k
                  { a with border := hb, borderColor := hbc, highlight := true } i))
        ∧ (∀ p k (a : CellAttrs) i, p ∉ S → ndsSize pre < p →
            p < ndsSize pre + (2 + ndsSize rows) →
            nodeAtList (pre ++ .table ta rows :: post) 0 p = some (.cell k a i) →
            nodeAtList d2 0 p = some (.cell k { a with border := v } i)))
    ∧ (∃ d2, defaultBorderColor
          (highlightSelection (pre ++ .table ta rows :: post) (.cellsSel S) hb hbc).1
          sel v = some (d2, true)
        ∧ (∀ p ∈ S, ∀ k (a : CellAttrs) i,
            nodeAtList (pre ++ .table ta rows :: post) 0 p = some (.cell k a i) →
            nodeAtList d2 0 p
              = some (.cell k
                  { a with border := hb, borderColor := hbc, highlight := true } i))
        ∧ (∀ p k (a : CellAttrs) i, p ∉ S → ndsSize pre < p →
            p < ndsSize pre + (2 + ndsSize rows) →
            nodeAtList (pre ++ .table ta rows :: post) 0 p = some (.cell k a i) →
            nodeAtList d2 0 p = some (.cell k { a with borderColor := v } i)))
    ∧ (∃ d2, defaultBackgroundColor
          (highlightSelection (pre ++ .table ta rows :: post) (.cellsSel S) hb hbc).1
          sel v = some (d2, true)
        ∧ (∀ p ∈ S, ∀ k (a : CellAttrs) i,
            nodeAtList (pre ++ .table ta rows :: post) 0 p = some (.cell k a i) →
            nodeAtList d2 0 p
              = some (.cell k
                  { a with border := hb, borderColor := hbc, highlight := true } i))
        ∧ (∀ p k (a : CellAttrs) i, p ∉ S → ndsSize pre < p →
            p < ndsSize pre + (2 + ndsSize rows) →
            nodeAtList (pre ++ .table ta rows :: post) 0 p = some (.cell k a i) →
            nodeAtList d2 0 p = some (.cell k { a with background := v } i))) := by
  have hhlfree : ∀ p k (a : CellAttrs) i, p ∉ S →
      p < ndsSize pre + (2 + ndsSize rows) →
      nodeAtList (pre ++ .table ta rows :: post) 0 p = some (.cell k a i) →
      a.highlight = false := by
    intro p k a i hpS hp2 hat
    have hc := hcomp p hp2
    unfold hlOutside at hc
    rw [hat] at hc
    dsimp only at hc
    simp only [Bool.or_eq_true, decide_eq_true_eq] at hc
    rcases hc with hin | hh
    · exact absurd hin hpS
    · simpa using hh
  refine ⟨rfl, ?_, ?_, ?_⟩
  · obtain ⟨d2, he, ha, hc2⟩ := scoped_after_cellset
      (fun t => { t with border := v }) (fun a => { a with border := v })
      (fun a => { a with border := hb, borderColor := hbc, highlight := true })
      (fun a => rfl) pre post rows ta sel S hpre hpost hrows h1 h2 hS
    exact ⟨d2, he, ha, fun p k a i hpS hp1 hp2 hat =>
      hc2 p k a i hpS hp1 hp2 hat (hhlfree p k a i hpS hp2 hat)⟩
  · obtain ⟨d2, he, ha, hc2⟩ := scoped_after_cellset
      (fun t => { t with borderColor := v }) (fun a => { a with borderColor := v })
      (fun a => { a with border := hb, borderColor := hbc, highlight := true })
      (fun a => rfl) pre post rows ta sel S hpre hpost hrows h1 h2 hS
    exact ⟨d2, he, fun p hp k a i hat => (ha p hp k a i hat).2,
      fun p k a i hpS hp1 hp2 hat =>
        hc2 p k a i hpS hp1 hp2 hat (hhlfree p k a i hpS hp2 hat)⟩
  · obtain ⟨d2, he, ha, hc2⟩ := scoped_after_cellset
      (fun t => { t with background := v }) (fun a => { a with background := v })
      (fun a => { a with border := hb, borderColor := hbc, highlight := true })
      (fun a => rfl) pre post rows ta sel S hpre hpost hrows h1 h2 hS
    exact ⟨d2, he, fun p hp k a i hat => (ha p hp k a i hat).2,
      fun p k a i hpS hp1 hp2 hat =>
        hc2 p k a i hpS hp1 hp2 hat (hhlfree p k a i hpS hp2 hat)⟩

/-- C9: setTableCellBackground writes highlight = true together with the
new background in both of its branches (cell-range selection and single
enclosing tableCell), so every cell it touches is exempt from each of the
three subsequent table-wide default rewrites and from the alternation
rewrite, which all leave such a cell exactly as setTableCellBackground
left it. -/
theorem C9_background_highlight_exemption
    (pre post rows : List Nd) (ta : TableAttrs) (sel : Nat) (S : List Nat)
    (v w : Option String) (anchor : Nat)
    (hpre : ∀ n ∈ pre, topLevelWF n = true) (hpost : ∀ n ∈ post, topLevelWF n = true)
    (hrows : ∀ r ∈ rows, rowOfCells r = true)
    (h1 : ndsSize pre < sel) (h2 : sel < ndsSize pre + (2 + ndsSize rows))
    (hS : ∀ p ∈ S, ndsSize pre < p ∧ p < ndsSize pre + (2 + ndsSize rows)) :
    ((setTableCellBackground (pre ++ .table ta rows :: post) (.cellsSel S) v).2 = true
     ∧ (∀ p ∈ S, ∀ k (a : CellAttrs) i,
         nodeAtList (pre ++ .table ta rows :: post) 0 p = some (.cell k a i) →
         nodeAtList
           (setTableCellBackground (pre ++ .table ta rows :: post) (.cellsSel S) v).1 0 p
           = some (.cell k { a with background := v, highlight := true } i)))
    ∧ (∀ p (a : CellAttrs) i,
        findCellList (pre ++ .table ta rows :: post) 0 anchor = some (p, a, i) →
        (setTableCellBackground (pre ++ .table ta rows :: post) (.textSel anchor) v).2 = true
        ∧ nodeAtList
            (setTableCellBackground (pre ++ .table ta rows :: post) (.textSel anchor) v).1
            0 p
            = some (.cell .tableCell { a with background := v, highlight := true } i))
    ∧ (∃ d2, defaultBorder
          (setTableCellBackground (pre ++ .table ta rows :: post) (.cellsSel S) v).1
          sel w = some (d2, true)
        ∧ (∀ p ∈ S, ∀ k (a : CellAttrs) i,
            nodeAtList (pre ++ .table ta rows :: post) 0 p = some (.cell k a i) →
            nodeAtList d2 0 p
              = some (.cell k { a with background := v, highlight := true } i)))
    ∧ (∃ d2, defaultBorderColor
          (setTableCellBackground (pre ++ .table ta rows :: post) (.cellsSel S) v).1
          sel w = some (d2, true)
        ∧ (∀ p ∈ S, ∀ k (a : CellAttrs) i,
            nodeAtList (pre ++ .table ta rows :: post) 0 p = some (.cell k a i) →
            nodeAtList d2 0 p
              = some (.cell k { a with background := v, highlight := true } i)))
    ∧ (∃ d2, defaultBackgroundColor
          (setTableCellBackground (pre ++ .table ta rows :: post) (.cellsSel S) v).1
          sel w = some (d2, true)
        ∧ (∀ p ∈ S, ∀ k (a : CellAttrs) i,
            nodeAtList (pre ++ .table ta rows :: post) 0 p = some (.cell k a i) →
            nodeAtList d2 0 p
              = some (.cell k { a with background := v, highlight := true } i)))
    ∧ (∃ d3, alternateColor
          (setTableCellBackground (pre ++ .table ta rows :: post) (.cellsSel S) v).1 sel
          = some (d3, true)
        ∧ (∀ p ∈ S, ∀ k (a : CellAttrs) i,
            nodeAtList (pre ++ .table ta rows :: post) 0 p = some (.cell k a i) →
            nodeAtList d3 0 p
              = some (.cell k { a with background := v, highlight := true } i))) := by
  refine ⟨⟨rfl, ?_⟩, ?_, ?_, ?_, ?_, ?_⟩
  · intro p hp k a i hat
    show nodeAtList (forEachCellEdit (pre ++ .table ta rows :: post) S
        (fun a => { a with background := v, highlight := true })) 0 p
      = some (.cell k { a with background := v, highlight := true } i)
    rw [forEachCellEdit_eq_aux]
    exact forEachAux_mem S _ _ _ p k a a i hat hat hp
  · intro p a i hfind
    have hat := (findCell_nodeAt_list _ 0 anchor p a i hfind).2
    constructor
    · show (setTableCellBackground (pre ++ .table ta rows :: post) (.textSel anchor) v).2
        = true
      rw [setTableCellBackground, hfind]
    · rw [show (setTableCellBackground (pre ++ .table ta rows :: post)
            (.textSel anchor) v).1
          = applyList (pre ++ .table ta rows :: post) 0
              (.cellE p { a with background := v, highlight := true }) from by
        rw [setTableCellBackground, hfind]]
      have := cellAt_applyList (pre ++ .table ta rows :: post) 0 p p
        { a with background := v, highlight := true } .tableCell a i hat
      rw [if_pos rfl] at this
      exact this
  · obtain ⟨d2, he, ha, _⟩ := scoped_after_cellset
      (fun t => { t with border := w }) (fun a => { a with border := w })
      (fun a => { a with background := v, highlight := true })
      (fun a => rfl) pre post rows ta sel S hpre hpost hrows h1 h2 hS
    exact ⟨d2, he, fun p hp k a i hat => (ha p hp k a i hat).2⟩
  · obtain ⟨d2, he, ha, _⟩ := scoped_after_cellset
      (fun t => { t with borderColor := w }) (fun a => { a with borderColor := w })
      (fun a => { a with background := v, highlight := true })
      (fun a => rfl) pre post rows ta sel S hpre hpost hrows h1 h2 hS
    exact ⟨d2, he, fun p hp k a i hat => (ha p hp k a i hat).2⟩
  · obtain ⟨d2, he, ha, _⟩ := scoped_after_cellset
      (fun t => { t with background := w }) (fun a => { a with background := w })
      (fun a => { a with background := v, highlight := true })
      (fun a => rfl) pre post rows ta sel S hpre hpost hrows h1 h2 hS
    exact ⟨d2, he, fun p hp k a i hat => (ha p hp k a i hat).2⟩
  · obtain ⟨d3, he, ha⟩ := alternate_after_cellset
      (fun a => { a with background := v, highlight := true })
      (fun a => rfl) pre post rows ta sel S hpre hpost hrows h1 h2 hS
    exact ⟨d3, he, ha⟩

/-! ### Concrete sample inputs for the witnesses -/

/-- An empty body cell with default attributes. -/
def sampleCell : Nd := .cell .tableCell ⟨none, none, none, false, 1, 1⟩ 2

/-- Default table attributes. -/
def sampleTa : TableAttrs := ⟨none, none, none, "false"⟩

/-- Two rows of two default cells. -/
def sampleRows : List Nd := [.row [sampleCell, sampleCell], .row [sampleCell, sampleCell]]

/-- A one-table document: 2 by 2, all attributes default. -/
def sampleDoc : List Nd := [.table sampleTa sampleRows]

/-- A highlighted cell carrying override border attributes. -/
def sampleCellH : Nd := .cell .tableCell ⟨some "4px dashed", some "red", none, true, 1, 1⟩ 2

/-- A one-table document whose single cell is highlighted. -/
def sampleDocH : List Nd := [.table sampleTa [.row [sampleCellH]]]

/-- table.nodeAt for a 2 by 2 table whose first row is one colspan-2 cell:
positions inside the table are 1 (the spanning cell), 12 and 16. -/
def sampleNodeAt : Nat → Option PMCell
  | 1 => some ⟨.tableCell, ⟨none, none, none, false, 2, 1⟩⟩
  | 12 => some ⟨.tableCell, ⟨none, none, none, false, 1, 1⟩⟩
  | 16 => some ⟨.tableHeaderCell, ⟨none, none, none, false, 1, 1⟩⟩
  | _ => none

/-- A stand-in for map.positionAt. -/
def samplePosAt : Nat → Nat → Nat := fun r c => 100 * r + c

/-- Witness for C10 at a concrete merge command that succeeds. -/
theorem C10_witness :
    ((fun (_ : List Nd) => some [Nd.blk 2]) ([] : List Nd) = some [Nd.blk 2] →
      toggleMergeCellCommand (fun _ => some [Nd.blk 2]) (fun _ => none) []
        = (false, some [Nd.blk 2]))
    ∧ ((fun (_ : List Nd) => some [Nd.blk 2]) ([] : List Nd) = none →
      toggleMergeCellCommand (fun _ => some [Nd.blk 2]) (fun _ => none) []
        = match (fun (_ : List Nd) => (none : Option (List Nd))) ([] : List Nd) with
          | some d2 => (true, some d2)
          | none => (false, none)) :=
  C10_toggle_merge_inverted (fun _ => some [Nd.blk 2]) (fun _ => none) [] [Nd.blk 2]

/-- Witness for C8 on a structurally valid 2 by 2 table. -/
theorem C8_witness :
    docValid sampleDoc = true
    ∧ (((fixTablesCommand none sampleDoc).1 = false ↔ fixTables sampleDoc none = none)
      ∧ (fixTables sampleDoc none = none → (fixTablesCommand none sampleDoc).2 = sampleDoc)
      ∧ (docValid sampleDoc = true →
          fixTablesCommand none sampleDoc = (false, sampleDoc)
          ∧ fixTablesCommand none ((fixTablesCommand none sampleDoc).2)
            = (false, sampleDoc))) :=
  ⟨by decide, C8_fixTables_idempotent none sampleDoc⟩

/-- Table attributes carrying all three style defaults. -/
def sampleTaS : TableAttrs := ⟨some "1px solid", some "blue", some "#eee", "false"⟩

/-- Witness for C4: the document is the table under edit followed by a
sibling table; all three defaults rewrite only the first table. -/
theorem C4_witness :
    ndsSize ([] : List Nd) < 3
    ∧ (defaultBorder ([] ++ .table sampleTa sampleRows :: [.table sampleTa sampleRows]) 3
          (some "2px solid")
        = some ([] ++ .table { sampleTa with border := some "2px solid" }
            (sampleRows.map (updRowN (fun a => { a with border := some "2px solid" })))
            :: [.table sampleTa sampleRows], true)
      ∧ defaultBorderColor ([] ++ .table sampleTa sampleRows :: [.table sampleTa sampleRows]) 3
          (some "red")
        = some ([] ++ .table { sampleTa with borderColor := some "red" }
            (sampleRows.map (updRowN (fun a => { a with borderColor := some "red" })))
            :: [.table sampleTa sampleRows], true)
      ∧ defaultBackgroundColor
          ([] ++ .table sampleTa sampleRows :: [.table sampleTa sampleRows]) 3 (some "#fff")
        = some ([] ++ .table { sampleTa with background := some "#fff" }
            (sampleRows.map (updRowN (fun a => { a with background := some "#fff" })))
            :: [.table sampleTa sampleRows], true)) :=
  ⟨by decide,
   C4_sibling_scope_isolation [] [.table sampleTa sampleRows] sampleRows sampleTa 3
     (some "2px solid") (some "red") (some "#fff")
     (by decide) (by decide) (by decide) (by decide) (by decide)⟩

/-- Witness for C6: structuralFinish on a table whose attributes carry all
three defaults restyles every row, and updCellN applies the defaults to a
plain cell while leaving a highlighted cell untouched. -/
theorem C6_witness :
    ndsSize ([] : List Nd) < 3
    ∧ structuralFinish [.table sampleTaS sampleRows] 3
        = some [.table sampleTaS (sampleRows.map (updRowN (fun a =>
            { a with border := sampleTaS.border, borderColor := sampleTaS.borderColor,
                     background := sampleTaS.background })))]
    ∧ updCellN (fun a =>
          { a with border := sampleTaS.border, borderColor := sampleTaS.borderColor,
                   background := sampleTaS.background })
        (.cell .tableCell ⟨none, none, none, false, 1, 1⟩ 2)
        = .cell .tableCell ⟨some "1px solid", some "blue", some "#eee", false, 1, 1⟩ 2
    ∧ updCellN (fun a =>
          { a with border := sampleTaS.border, borderColor := sampleTaS.borderColor,
                   background := sampleTaS.background })
        (.cell .tableCell ⟨some "4px dashed", some "red", none, true, 1, 1⟩ 2)
        = .cell .tableCell ⟨some "4px dashed", some "red", none, true, 1, 1⟩ 2 := by
  have h := C6_structural_edit_finish [] [] sampleRows sampleTaS 3
    (by decide) (by decide) (by decide) (by decide) (by decide)
  exact ⟨by decide, h.1,
    h.2.1 .tableCell ⟨none, none, none, false, 1, 1⟩ 2 rfl,
    h.2.2 .tableCell ⟨some "4px dashed", some "red", none, true, 1, 1⟩ 2 rfl⟩

/-- Witness for C7: a 4-row one-column table of plain cells, selection at
position 1; rows 1 and 3 get "#E6E6E6", rows 2 and 4 get "null". -/
theorem C7_witness :
    0 < 1
    ∧ (alternateColor
        [.table sampleTa [.row [sampleCell], .row [sampleCell],
                          .row [sampleCell], .row [sampleCell]]] 1
      = some ([.table (altTa sampleTa)
          [.row ([sampleCell].map (setBgN (some "#E6E6E6"))),
           .row ([sampleCell].map (setBgN (some "null"))),
           .row ([sampleCell].map (setBgN (some "#E6E6E6"))),
           .row ([sampleCell].map (setBgN (some "null")))]], true)
      ∧ (some "#E6E6E6" : Option String) ≠ some "null") :=
  ⟨by decide,
   C7_alternation_parity sampleTa [sampleCell] [sampleCell] [sampleCell] [sampleCell] 1
     (by decide) (by decide) (by decide) (by decide) (by decide) (by decide)⟩

/-- Witness for C3 (amended): on the highlighted-cell document, the range
branch at position 2 nulls border and borderColor and clears highlight,
while the single-enclosing-cell branch anchored at 3 clears highlight only,
keeping border "4px dashed" and borderColor "red"; both return true. -/
theorem C3_witness :
    nodeAtList sampleDocH 0 2
      = some (.cell .tableCell ⟨some "4px dashed", some "red", none, true, 1, 1⟩ 2)
    ∧ (removeHighlightSelection sampleDocH (.cellsSel [2])).2 = true
    ∧ nodeAtList (removeHighlightSelection sampleDocH (.cellsSel [2])).1 0 2
      = some (.cell .tableCell ⟨none, none, none, false, 1, 1⟩ 2)
    ∧ findCellList sampleDocH 0 3
      = some (2, ⟨some "4px dashed", some "red", none, true, 1, 1⟩, 2)
    ∧ (removeHighlightSelection sampleDocH (.textSel 3)).2 = true
    ∧ nodeAtList (removeHighlightSelection sampleDocH (.textSel 3)).1 0 2
      = some (.cell .tableCell ⟨some "4px dashed", some "red", none, false, 1, 1⟩ 2) := by
  have h := C3_clearHighlight_amended sampleDocH [2] 3
  exact ⟨rfl, h.1.1,
    h.1.2 2 (by decide) .tableCell ⟨some "4px dashed", some "red", none, true, 1, 1⟩ 2 rfl,
    rfl,
    (h.2 2 ⟨some "4px dashed", some "red", none, true, 1, 1⟩ 2 rfl).1,
    (h.2 2 ⟨some "4px dashed", some "red", none, true, 1, 1⟩ 2 rfl).2⟩

/-- Witness for C5: on the 2 by 2 grid whose first row is one colspan-2
cell, the loop at row 0 (where the target column 1 sits inside the span)
queues a colspan extension to 3 and recurses past the spanned rows, while
at row 1 (guard false, insertion before the last column fails so the
reference is one column backward) it queues one inserted cell of the
reference cell's kind. -/
theorem C5_witness :
    (0 < (⟨2, 2, [1, 1, 12, 16]⟩ : TMap).height
      ∧ 1 < (⟨2, 2, [1, 1, 12, 16]⟩ : TMap).height)
    ∧ (addColumnLoop ⟨2, 2, [1, 1, 12, 16]⟩ sampleNodeAt samplePosAt 1 0 1
        = (addColumnLoop ⟨2, 2, [1, 1, 12, 16]⟩ sampleNodeAt samplePosAt 1 1 0).map
            (fun es => .extendSpan 0 1 (addColSpan ⟨none, none, none, false, 2, 1⟩) :: es)
      ∧ (addColSpan ⟨none, none, none, false, 2, 1⟩).colspan = 3)
    ∧ addColumnLoop ⟨2, 2, [1, 1, 12, 16]⟩ sampleNodeAt samplePosAt 1 1 1
        = (addColumnLoop ⟨2, 2, [1, 1, 12, 16]⟩ sampleNodeAt samplePosAt 1 2 0).map
            (fun es => .insertCell 1 (samplePosAt 1 1) CellKind.tableCell :: es) := by
  have h0 := C5_insert_column_behavior ⟨2, 2, [1, 1, 12, 16]⟩ sampleNodeAt samplePosAt
    1 0 0 (by decide)
  have h1 := C5_insert_column_behavior ⟨2, 2, [1, 1, 12, 16]⟩ sampleNodeAt samplePosAt
    1 1 0 (by decide)
  refine ⟨⟨by decide, by decide⟩, ?_, ?_⟩
  · have hb := h0.1 1 ⟨.tableCell, ⟨none, none, none, false, 2, 1⟩⟩
      (by refine ⟨by decide, by decide, by decide⟩) (by decide) rfl
    exact ⟨hb.1, hb.2.1⟩
  · exact h1.2 (by decide) 12 ⟨.tableCell, ⟨none, none, none, false, 1, 1⟩⟩ (by decide) rfl

/-- Witness for C1: highlight the cell at position 2 of the 2 by 2 table
(the other three cells stay non-highlighted, which the decidable
completeness scan confirms for every position below the document size 22);
every default rewrite then returns true, keeps cell 2 exactly as the
highlight rewrite left it, and writes the named attribute on the cells
outside the set. -/
theorem C1_witness :
    (∀ p, p < 22 → hlOutside sampleDoc [2] p = true)
    ∧ ((highlightSelection sampleDoc (.cellsSel [2]) (some "4px dashed") (some "red")).2
        = true
    ∧ (∃ d2, defaultBorder
          (highlightSelection sampleDoc (.cellsSel [2]) (some "4px dashed") (some "red")).1
          3 (some "1px dotted") = some (d2, true)
        ∧ (∀ p ∈ [2], ∀ k (a : CellAttrs) i,
            nodeAtList sampleDoc 0 p = some (.cell k a i) →
            nodeAtList
              (highlightSelection sampleDoc (.cellsSel [2])
                (some "4px dashed") (some "red")).1 0 p
              = some (.cell k
                  { a with border := some "4px dashed", borderColor := some "red",
                           highlight := true } i)
            ∧ nodeAtList d2 0 p
              = some (.cell k
                  { a with border := some "4px dashed", borderColor := some "red",
                           highlight := true } i))
        ∧ (∀ p k (a : CellAttrs) i, p ∉ [2] → 0 < p → p < 22 →
            nodeAtList sampleDoc 0 p = some (.cell k a i) →
            nodeAtList d2 0 p = some (.cell k { a with border := some "1px dotted" } i)))
    ∧ (∃ d2, defaultBorderColor
          (highlightSelection sampleDoc (.cellsSel [2]) (some "4px dashed") (some "red")).1
          3 (some "1px dotted") = some (d2, true)
        ∧ (∀ p ∈ [2], ∀ k (a : CellAttrs) i,
            nodeAtList sampleDoc 0 p = some (.cell k a i) →
            nodeAtList d2 0 p
              = some (.cell k
                  { a with border := some "4px dashed", borderColor := some "red",
                           highlight := true } i))
        ∧ (∀ p k (a : CellAttrs) i, p ∉ [2] → 0 < p → p < 22 →
            nodeAtList sampleDoc 0 p = some (.cell k a i) →
            nodeAtList d2 0 p
              = some (.cell k { a with borderColor := some "1px dotted" } i)))
    ∧ (∃ d2, defaultBackgroundColor
          (highlightSelection sampleDoc (.cellsSel [2]) (some "4px dashed") (some "red")).1
          3 (some "1px dotted") = some (d2, true)
        ∧ (∀ p ∈ [2], ∀ k (a : CellAttrs) i,
            nodeAtList sampleDoc 0 p = some (.cell k a i) →
            nodeAtList d2 0 p
              = some (.cell k
                  { a with border := some "4px dashed", borderColor := some "red",
                           highlight := true } i))
        ∧ (∀ p k (a : CellAttrs) i, p ∉ [2] → 0 < p → p < 22 →
            nodeAtList sampleDoc 0 p = some (.cell k a i) →
            nodeAtList d2 0 p
              = some (.cell k { a with background := some "1px dotted" } i)))) :=
  ⟨by decide,
   C1_highlight_exemption [] [] sampleRows sampleTa 3 [2]
     (some "4px dashed") (some "red") (some "1px dotted")
     (by decide) (by decide) (by decide) (by decide) (by decide) (by decide) (by decide)⟩

/-- Witness for C9: set the background of the cell at position 2 to
"#ff0000" (and, via the anchored branch, the same through a text selection
at 3): the cell comes out with highlight = true, and each of the three
default rewrites with value "1px" and the alternation rewrite leave it
exactly as setTableCellBackground wrote it. -/
theorem C9_witness :
    (∀ p ∈ [2], 0 < p ∧ p < 22)
    ∧ (((setTableCellBackground sampleDoc (.cellsSel [2]) (some "#ff0000")).2 = true
       ∧ (∀ p ∈ [2], ∀ k (a : CellAttrs) i,
           nodeAtList sampleDoc 0 p = some (.cell k a i) →
           nodeAtList
             (setTableCellBackground sampleDoc (.cellsSel [2]) (some "#ff0000")).1 0 p
             = some (.cell k { a with background := some "#ff0000", highlight := true } i)))
    ∧ (∀ p (a : CellAttrs) i,
        findCellList sampleDoc 0 3 = some (p, a, i) →
        (setTableCellBackground sampleDoc (.textSel 3) (some "#ff0000")).2 = true
        ∧ nodeAtList
            (setTableCellBackground sampleDoc (.textSel 3) (some "#ff0000")).1 0 p
            = some (.cell .tableCell
                { a with background := some "#ff0000", highlight := true } i))
    ∧ (∃ d2, defaultBorder
          (setTableCellBackground sampleDoc (.cellsSel [2]) (some "#ff0000")).1
          3 (some "1px") = some (d2, true)
        ∧ (∀ p ∈ [2], ∀ k (a : CellAttrs) i,
            nodeAtList sampleDoc 0 p = some (.cell k a i) →
            nodeAtList d2 0 p
              = some (.cell k { a with background := some "#ff0000", highlight := true } i)))
    ∧ (∃ d2, defaultBorderColor
          (setTableCellBackground sampleDoc (.cellsSel [2]) (some "#ff0000")).1
          3 (some "1px") = some (d2, true)
        ∧ (∀ p ∈ [2], ∀ k (a : CellAttrs) i,
            nodeAtList sampleDoc 0 p = some (.cell k a i) →
            nodeAtList d2 0 p
              = some (.cell k { a with background := some "#ff0000", highlight := true } i)))
    ∧ (∃ d2, defaultBackgroundColor
          (setTableCellBackground sampleDoc (.cellsSel [2]) (some "#ff0000")).1
          3 (some "1px") = some (d2, true)
        ∧ (∀ p ∈ [2], ∀ k (a : CellAttrs) i,
            nodeAtList sampleDoc 0 p = some (.cell k a i) →
            nodeAtList d2 0 p
              = some (.cell k { a with background := some "#ff0000", highlight := true } i)))
    ∧ (∃ d3, alternateColor
          (setTableCellBackground sampleDoc (.cellsSel [2]) (some "#ff0000")).1 3
          = some (d3, true)
        ∧ (∀ p ∈ [2], ∀ k (a : CellAttrs) i,
            nodeAtList sampleDoc 0 p = some (.cell k a i) →
            nodeAtList d3 0 p
              = some (.cell k
                  { a with background := some "#ff0000", highlight := true } i)))) :=
  ⟨by decide,
   C9_background_highlight_exemption [] [] sampleRows sampleTa 3 [2]
     (some "#ff0000") (some "1px") 3
     (by decide) (by decide) (by decide) (by decide) (by decide) (by decide)⟩
